import Mathlib

/-!
Verification development for the xWRL6432 ADC reader.

Shallow embedding of the acquisition pipeline of the repository:
the RDIF unswizzle decoder and raw-data interpretation
(xwrl6432_adc_reader.py), the DCA1000 packet parsing, frame
reassembly and stale-frame eviction (adc_reader/utils/adc.py), the
radar CLI send-and-listen cycle (adc_reader/utils/radar_cli.py), the
radar configuration parser, and the hardware-initialization path of
the orchestrator.  Machine integers are modelled as Nat/Int with
explicit reductions mod 2^w where the code's dtype makes overflow
observable; timestamps (time.time()) are modelled as exact rationals;
fallible code returns Option/Except.
-/

namespace XWRL6432

/-! ### RDIF unswizzle decoder

Source: xwrl6432_adc_reader.py, `_unswizzle_rdif_data` (lines 348-424). -/

/-- Per-sample bit shifts selecting the 3-bit groups of the input words for
output samples S0, S1, S2, S3; source line
`input_word_group_shifts = [9, 6, 3, 0]`. -/
def input_word_group_shifts : List Nat := [9, 6, 3, 0]

/-- One decoded output sample of a 4-word RDIF block.  `w j` is word `Wj` of
the block (a row of `data_reshaped`), `shift` the per-sample bit shift.
Mirrors the source: the 3-bit group of word `Wj` is `(Wj >> shift) & 0x7`;
for bit index `k` of the group and source word `j`, bit
`((group >> k) & 1)` is or-ed into the sample at bit position `4*k + j`. -/
def rdif_sample (w : Nat → Nat) (shift : Nat) : Nat :=
  (List.range 3).foldl (fun s k =>
    (List.range 4).foldl (fun s j =>
      s ||| (((((w j >>> shift) &&& 7) >>> k) &&& 1) <<< (4 * k + j))) s) 0

/-- The four decoded samples `[S0, S1, S2, S3]` of one RDIF block
`[W0, W1, W2, W3]` (the per-block column of `np.stack(s_arrays, axis=1)`). -/
def rdif_block (w0 w1 w2 w3 : Nat) : List Nat :=
  input_word_group_shifts.map (rdif_sample (fun j => [w0, w1, w2, w3].getD j 0))

/-- Blockwise decoding of the flat word list: reshape into rows of 4 words,
decode each row, and flatten the stacked results row-wise. -/
def unswizzle_go : List Nat → List Nat
  | w0 :: w1 :: w2 :: w3 :: rest => rdif_block w0 w1 w2 w3 ++ unswizzle_go rest
  | _ => []

/-- `_unswizzle_rdif_data`: the input is cast to uint16
(`np.array(raw_data, dtype=np.uint16)`, modelled as reduction mod 2^16);
the assertion that the length is non-zero and a multiple of 4 is modelled
as `none` on failure (AssertionError). -/
def unswizzle_rdif_data (raw : List Nat) : Option (List Nat) :=
  let raw16 := raw.map (· % 65536)
  if raw16.length ≠ 0 ∧ raw16.length % 4 = 0 then some (unswizzle_go raw16) else none

lemma list_range_three : List.range 3 = [0, 1, 2] := rfl

lemma list_range_four : List.range 4 = [0, 1, 2, 3] := rfl

lemma nat_lor_lt_two_pow {x y n : Nat} (hx : x < 2 ^ n) (hy : y < 2 ^ n) :
    x ||| y < 2 ^ n :=
  Nat.bitwise_lt hx hy

lemma testBit_mod_two (y p : Nat) :
    (y % 2).testBit p = (decide (p = 0) && y.testBit 0) := by
  cases p with
  | zero =>
    rw [show (2 : Nat) = 2 ^ 1 by norm_num]
    simp [Nat.testBit_mod_two_pow]
  | succ q =>
    have h2 : y % 2 < 2 ^ (q + 1) := by
      have hlt : y % 2 < 2 := Nat.mod_lt _ (by norm_num)
      have : (2 : Nat) ≤ 2 ^ (q + 1) := by
        calc (2 : Nat) = 2 ^ 1 := by norm_num
        _ ≤ 2 ^ (q + 1) := Nat.pow_le_pow_right (by norm_num) (by omega)
      omega
    simp [Nat.testBit_eq_false_of_lt h2]

/-- Bit `4*k + j` of a decoded sample is bit `shift + k` of input word `w j`. -/
lemma rdif_sample_testBit (w : Nat → Nat) (shift k j : Nat) (hk : k < 3) (hj : j < 4) :
    (rdif_sample w shift).testBit (4 * k + j) = (w j).testBit (shift + k) := by
  have h7 : ∀ i : Nat, i < 3 → (7 : Nat).testBit i = true := by decide
  interval_cases k <;> interval_cases j <;>
    simp [rdif_sample, list_range_three, list_range_four, Nat.testBit_lor,
      Nat.testBit_shiftLeft, Nat.testBit_land, Nat.testBit_shiftRight,
      testBit_mod_two, h7]

/-- A decoded sample is a 12-bit value. -/
lemma rdif_sample_lt (w : Nat → Nat) (shift : Nat) : rdif_sample w shift < 4096 := by
  have hterm : ∀ x p : Nat, p < 12 → ((x &&& 1) <<< p) < 4096 := by
    intro x p hp
    have h1 : x &&& 1 ≤ 1 := Nat.and_le_right
    calc (x &&& 1) <<< p = (x &&& 1) * 2 ^ p := Nat.shiftLeft_eq _ _
    _ ≤ 1 * 2 ^ p := Nat.mul_le_mul_right _ h1
    _ = 2 ^ p := one_mul _
    _ < 4096 := by
        have : (2 : Nat) ^ p ≤ 2 ^ 11 := Nat.pow_le_pow_right (by norm_num) (by omega)
        omega
  have h4096 : (4096 : Nat) = 2 ^ 12 := by norm_num
  simp only [rdif_sample, list_range_three, list_range_four, List.foldl]
  rw [h4096]
  refine nat_lor_lt_two_pow (by
    refine nat_lor_lt_two_pow (by
      refine nat_lor_lt_two_pow (by
        refine nat_lor_lt_two_pow (by
          refine nat_lor_lt_two_pow (by
            refine nat_lor_lt_two_pow (by
              refine nat_lor_lt_two_pow (by
                refine nat_lor_lt_two_pow (by
                  refine nat_lor_lt_two_pow (by
                    refine nat_lor_lt_two_pow (by
                      refine nat_lor_lt_two_pow (by
                        refine nat_lor_lt_two_pow (by norm_num)
                          (by rw [← h4096]; exact hterm _ _ (by norm_num)))
                        (by rw [← h4096]; exact hterm _ _ (by norm_num)))
                      (by rw [← h4096]; exact hterm _ _ (by norm_num)))
                    (by rw [← h4096]; exact hterm _ _ (by norm_num)))
                  (by rw [← h4096]; exact hterm _ _ (by norm_num)))
                (by rw [← h4096]; exact hterm _ _ (by norm_num)))
              (by rw [← h4096]; exact hterm _ _ (by norm_num)))
            (by rw [← h4096]; exact hterm _ _ (by norm_num)))
          (by rw [← h4096]; exact hterm _ _ (by norm_num)))
        (by rw [← h4096]; exact hterm _ _ (by norm_num)))
      (by rw [← h4096]; exact hterm _ _ (by norm_num)))
    (by rw [← h4096]; exact hterm _ _ (by norm_num))

lemma getD_map_mod (l : List Nat) (t : Nat) :
    (l.map (· % 65536)).getD t 0 = l.getD t 0 % 65536 := by
  induction l generalizing t with
  | nil => simp
  | cons a l ih =>
    cases t with
    | zero => simp
    | succ s => simpa using ih s

lemma getD_cons_four {α : Type} (d : α) (x : Nat) (a b c e : α) (l : List α) :
    (a :: b :: c :: e :: l).getD (x + 4) d = l.getD x d := rfl

lemma testBit_mod_65536 (x t : Nat) (ht : t < 16) : (x % 65536).testBit t = x.testBit t := by
  rw [show (65536 : Nat) = 2 ^ 16 by norm_num, Nat.testBit_mod_two_pow]
  simp [ht]

lemma unswizzle_go_spec (n : Nat) : ∀ raw : List Nat, raw.length = 4 * n →
    (unswizzle_go raw).length = raw.length ∧
    ∀ b i, b < n → i < 4 →
      (unswizzle_go raw).getD (4 * b + i) 0 =
        (rdif_block (raw.getD (4 * b) 0) (raw.getD (4 * b + 1) 0)
          (raw.getD (4 * b + 2) 0) (raw.getD (4 * b + 3) 0)).getD i 0 := by
  induction n with
  | zero =>
    intro raw h
    have hnil : raw = [] := List.eq_nil_of_length_eq_zero (by omega)
    subst hnil
    exact ⟨rfl, by intro b i hb hi; omega⟩
  | succ m ih =>
    intro raw h
    cases raw with
    | nil => simp only [List.length_nil] at h; omega
    | cons w0 t0 =>
    cases t0 with
    | nil => simp only [List.length_cons, List.length_nil] at h; omega
    | cons w1 t1 =>
    cases t1 with
    | nil => simp only [List.length_cons, List.length_nil] at h; omega
    | cons w2 t2 =>
    cases t2 with
    | nil => simp only [List.length_cons, List.length_nil] at h; omega
    | cons w3 rest =>
    have hr : rest.length = 4 * m := by
      simp only [List.length_cons] at h; omega
    obtain ⟨ihlen, ihget⟩ := ih rest hr
    have hgo : unswizzle_go (w0 :: w1 :: w2 :: w3 :: rest) =
        rdif_block w0 w1 w2 w3 ++ unswizzle_go rest := rfl
    have hblock : (rdif_block w0 w1 w2 w3).length = 4 := by
      simp [rdif_block, input_word_group_shifts]
    constructor
    · rw [hgo]
      simp only [List.length_append, hblock, ihlen, List.length_cons]
      omega
    · intro b i hb hi
      cases b with
      | zero =>
        rw [hgo]
        simp only [Nat.mul_zero, Nat.zero_add]
        rw [List.getD_append _ _ _ _ (by rw [hblock]; omega)]
        interval_cases i <;> rfl
      | succ b' =>
        rw [hgo]
        have hidx : 4 * (b' + 1) + i = (4 * b' + i) + 4 := by ring
        rw [hidx, List.getD_append_right _ _ _ _ (by rw [hblock]; omega)]
        rw [hblock]
        have hsub : 4 * b' + i + 4 - 4 = 4 * b' + i := by omega
        rw [hsub, ihget b' i (by omega) hi]
        have h3 : (4 * (b' + 1) + 3 : Nat) = (4 * b' + 3) + 4 := by ring
        have h2 : (4 * (b' + 1) + 2 : Nat) = (4 * b' + 2) + 4 := by ring
        have h1 : (4 * (b' + 1) + 1 : Nat) = (4 * b' + 1) + 4 := by ring
        have h0 : (4 * (b' + 1) : Nat) = (4 * b') + 4 := by ring
        rw [h3, h2, h1, h0]
        rw [getD_cons_four, getD_cons_four, getD_cons_four, getD_cons_four]

/-- C1: for every input of uint16 words whose length is a non-zero multiple
of 4, the RDIF unswizzle decoder produces an output of the same length in
which, for each 4-word block and each output sample Si, bit 4*k+j of Si
equals bit (shift_i + k) of word Wj of that block, with shifts 9, 6, 3, 0
for S0..S3 and the block's outputs in order S0,S1,S2,S3 (each a 12-bit
value); an input whose length is not a non-zero multiple of 4 fails. -/
theorem unswizzle_rdif_data_spec (raw : List Nat) :
    (raw.length ≠ 0 ∧ raw.length % 4 = 0 →
      ∃ out, unswizzle_rdif_data raw = some out ∧ out.length = raw.length ∧
        ∀ b i k j, 4 * b + 3 < raw.length → i < 4 → k < 3 → j < 4 →
          ((out.getD (4 * b + i) 0).testBit (4 * k + j) =
              (raw.getD (4 * b + j) 0).testBit (input_word_group_shifts.getD i 0 + k)
            ∧ out.getD (4 * b + i) 0 < 4096))
    ∧ (raw.length = 0 ∨ raw.length % 4 ≠ 0 → unswizzle_rdif_data raw = none) := by
  have hlen16 : (raw.map (· % 65536)).length = raw.length := by simp
  constructor
  · rintro ⟨hne, hmod⟩
    have hsome : unswizzle_rdif_data raw = some (unswizzle_go (raw.map (· % 65536))) := by
      unfold unswizzle_rdif_data
      rw [if_pos]
      rw [hlen16]
      exact ⟨hne, hmod⟩
    obtain ⟨glen, gget⟩ := unswizzle_go_spec (raw.length / 4) (raw.map (· % 65536))
      (by rw [hlen16]; omega)
    refine ⟨unswizzle_go (raw.map (· % 65536)), hsome, by rw [glen, hlen16], ?_⟩
    intro b i k j hb hi hk hj
    have hbn : b < raw.length / 4 := by omega
    rw [gget b i hbn hi]
    have hfun : ∀ u0 u1 u2 u3 : Nat, ∀ i', i' < 4 → (rdif_block u0 u1 u2 u3).getD i' 0 =
        rdif_sample (fun j' => [u0, u1, u2, u3].getD j' 0) (input_word_group_shifts.getD i' 0) := by
      intro u0 u1 u2 u3 i' hi'
      interval_cases i' <;> rfl
    rw [hfun _ _ _ _ i hi]
    constructor
    · rw [rdif_sample_testBit _ _ k j hk hj]
      have hw : ∀ j', j' < 4 →
          ([((raw.map (· % 65536)).getD (4 * b) 0), ((raw.map (· % 65536)).getD (4 * b + 1) 0),
            ((raw.map (· % 65536)).getD (4 * b + 2) 0),
            ((raw.map (· % 65536)).getD (4 * b + 3) 0)] : List Nat).getD j' 0 =
            raw.getD (4 * b + j') 0 % 65536 := by
        intro j' hj'
        interval_cases j' <;>
          simp only [List.getD_cons_zero, List.getD_cons_succ, Nat.add_zero] <;>
          exact getD_map_mod _ _
      rw [hw j hj]
      have hS : input_word_group_shifts.getD i 0 ≤ 9 := by
        interval_cases i <;> simp [input_word_group_shifts]
      exact testBit_mod_65536 _ _ (by omega)
    · exact rdif_sample_lt _ _
  · intro h
    unfold unswizzle_rdif_data
    rw [if_neg]
    rw [hlen16]
    omega

theorem unswizzle_rdif_data_spec_witness :
    (∃ out, unswizzle_rdif_data [1, 2, 3, 4] = some out ∧
      out.length = ([1, 2, 3, 4] : List Nat).length ∧
      ∀ b i k j, 4 * b + 3 < ([1, 2, 3, 4] : List Nat).length → i < 4 → k < 3 → j < 4 →
        (((out.getD (4 * b + i) 0).testBit (4 * k + j) =
            (([1, 2, 3, 4] : List Nat).getD (4 * b + j) 0).testBit
              (input_word_group_shifts.getD i 0 + k))
          ∧ out.getD (4 * b + i) 0 < 4096)) ∧
    unswizzle_rdif_data [1, 2, 3] = none :=
  ⟨(unswizzle_rdif_data_spec [1, 2, 3, 4]).1 (by decide),
   (unswizzle_rdif_data_spec [1, 2, 3]).2 (by decide)⟩

/-! ### DCA1000 frame reassembly engine

Source: adc_reader/utils/adc.py (class DCA1000). -/

/-- One entry of `self.frame_buff` (a dict value): the per-frame sample
buffer `data` (np.empty of uint16, modelled with initial contents 0 — the
initial contents of np.empty are indeterminate and never observable, since
a frame is only returned once every position has been overwritten), the
boolean `filled` mask (np.zeros of bool) and the `first_seen` timestamp
(time.time(), modelled as an exact rational). -/
structure FrameBuf where
  data : List Nat
  filled : List Bool
  first_seen : ℚ
deriving DecidableEq, Repr

/-- The pending map `self.frame_buff`, a dict from frame id to buffer;
modelled as an insertion-ordered association list with unique keys. -/
abbrev FrameMap := List (Nat × FrameBuf)

/-- Dict lookup `self.frame_buff[k]` (None when absent). -/
def lookupFB : FrameMap → Nat → Option FrameBuf
  | [], _ => none
  | (k, v) :: rest, key => if k = key then some v else lookupFB rest key

/-- Dict value replacement at an existing key. -/
def updateFB : FrameMap → Nat → FrameBuf → FrameMap
  | [], _, _ => []
  | (k, v) :: rest, key, nv =>
    if k = key then (k, nv) :: rest else (k, v) :: updateFB rest key nv

/-- Dict deletion `del self.frame_buff[k]`. -/
def eraseFB : FrameMap → Nat → FrameMap
  | [], _ => []
  | (k, v) :: rest, key => if k = key then rest else (k, v) :: eraseFB rest key

/-- Numpy slice assignment `l[start : start + vals.length] = vals`. -/
def writeRange {α : Type} (l : List α) (start : Nat) (vals : List α) : List α :=
  l.take start ++ vals ++ l.drop (start + vals.length)

/-- The fresh buffer created by `frame_buff.setdefault(frame_id, {...})`:
`np.empty(uint16_in_frame)` data, all-false filled mask, `first_seen = now`. -/
def newFrameBuf (F : Nat) (now : ℚ) : FrameBuf :=
  ⟨List.replicate F 0, List.replicate F false, now⟩

/-- The while loop of `_place_data_packet_in_frame_buffer`.  `F` is
`self.uint16_in_frame`, `offset` the absolute uint16 position, `idx` the
read index into the payload, `remaining` the number of uint16 left, and
`completed` the result accumulator (overwritten on each completion).  The
recursion is driven by a fuel argument, initially `remaining`: whenever
`F > 0`, every iteration consumes at least one unit of `remaining`
(`chunk ≥ 1`), so the fuel never runs out before the loop condition
fails; the fuel-exhausted case and the `chunk = 0` exit are reachable
only for `F = 0`, where Python raises ZeroDivisionError. -/
def place_loop (F : Nat) (now : ℚ) : Nat → FrameMap → Nat → Nat →
    List Nat → Nat → Option (Nat × List Nat) → FrameMap × Option (Nat × List Nat)
  | 0, m, _, _, _, _, completed => (m, completed)
  | fuel + 1, m, offset, idx, payload, remaining, completed =>
    if 0 < remaining then
      let frame_id := offset / F
      let pos := offset % F
      let n_to_end := F - pos
      let chunk := min remaining n_to_end
      if chunk = 0 then (m, completed)
      else
        let buf0 := (lookupFB m frame_id).getD (newFrameBuf F now)
        let buf : FrameBuf :=
          ⟨writeRange buf0.data pos ((payload.drop idx).take chunk),
           writeRange buf0.filled pos (List.replicate chunk true),
           buf0.first_seen⟩
        let m1 := if (lookupFB m frame_id).isSome then updateFB m frame_id buf
                  else m ++ [(frame_id, buf)]
        if buf.filled.all (fun b => b) then
          place_loop F now fuel (eraseFB m1 frame_id) (offset + chunk) (idx + chunk)
            payload (remaining - chunk) (some (frame_id, buf.data))
        else
          place_loop F now fuel m1 (offset + chunk) (idx + chunk)
            payload (remaining - chunk) completed
    else (m, completed)

/-- `_place_data_packet_in_frame_buffer(byte_count, payload)`:
offset = byte_count // 2, loop over the payload. -/
def place_data_packet (F : Nat) (now : ℚ) (m : FrameMap) (byte_count : Nat)
    (payload : List Nat) : FrameMap × Option (Nat × List Nat) :=
  place_loop F now payload.length m (byte_count / 2) 0 payload payload.length none

/-- Instrumented variant of the loop recording, in loop order, every
completion `completed` is assigned to (it is not part of the source; it
names the sequence of frames that complete while one packet is drained,
so that which of them the source's single accumulator retains can be
stated). -/
def place_loop_completions (F : Nat) (now : ℚ) : Nat → FrameMap → Nat → Nat →
    List Nat → Nat → List (Nat × List Nat)
  | 0, _, _, _, _, _ => []
  | fuel + 1, m, offset, idx, payload, remaining =>
    if 0 < remaining then
      let frame_id := offset / F
      let pos := offset % F
      let n_to_end := F - pos
      let chunk := min remaining n_to_end
      if chunk = 0 then []
      else
        let buf0 := (lookupFB m frame_id).getD (newFrameBuf F now)
        let buf : FrameBuf :=
          ⟨writeRange buf0.data pos ((payload.drop idx).take chunk),
           writeRange buf0.filled pos (List.replicate chunk true),
           buf0.first_seen⟩
        let m1 := if (lookupFB m frame_id).isSome then updateFB m frame_id buf
                  else m ++ [(frame_id, buf)]
        if buf.filled.all (fun b => b) then
          (frame_id, buf.data) ::
            place_loop_completions F now fuel (eraseFB m1 frame_id) (offset + chunk)
              (idx + chunk) payload (remaining - chunk)
        else
          place_loop_completions F now fuel m1 (offset + chunk) (idx + chunk)
            payload (remaining - chunk)
    else []

/-- Instrumented chunk-size sequence of the per-packet loop (not part of
the source; it names the sizes `chunk` takes, for the split property). -/
def place_chunks (F : Nat) : Nat → Nat → Nat → List Nat
  | 0, _, _ => []
  | fuel + 1, offset, remaining =>
    if 0 < remaining then
      let pos := offset % F
      let chunk := min remaining (F - pos)
      if chunk = 0 then []
      else chunk :: place_chunks F fuel (offset + chunk) (remaining - chunk)
    else []

/-- `_delete_incomplete_frames(timeout_seconds)`: collect the ids of the
pending frames whose age `now - first_seen` exceeds the timeout, delete
each of them, and return the collected ids. -/
def delete_incomplete_frames (now : ℚ) (timeout_seconds : ℚ) (m : FrameMap) :
    FrameMap × List Nat :=
  let to_delete := (m.filter (fun e => decide (now - e.2.first_seen > timeout_seconds))).map
    (fun e => e.1)
  (to_delete.foldl (fun acc k => eraseFB acc k) m, to_delete)

/-- `self.frame_period_seconds = frame_period / 1000` (DCA1000.__init__). -/
def frame_period_seconds (frame_period : ℚ) : ℚ := frame_period / 1000

/-- `self.bytes_in_frame` as computed in DCA1000.__init__. -/
def bytes_in_frame (num_chirp_loops num_rx_ant num_tx_ant num_adc_samples : Nat)
    (cmplx_valued : Bool) (num_bytes_per_sample : Nat) : Nat :=
  num_chirp_loops * num_rx_ant * num_tx_ant * (if cmplx_valued then 2 else 1) *
    num_adc_samples * num_bytes_per_sample

/-- Errors of the data-packet read path, named after the failure taxonomy:
ProtocolTimeout is socket.timeout from recvfrom, MalformedPacket is the
struct.error raised when fewer than the 10 header bytes are present, and
OddPayload is the np.frombuffer ValueError on an odd payload byte count. -/
inductive DcaErr where
  | ProtocolTimeout
  | MalformedPacket
  | OddPayload
deriving DecidableEq, Repr

/-- Big-endian fold of `struct.unpack('>Q', ...)` over a byte list. -/
def be_u64 (bytes : List Nat) : Nat :=
  bytes.foldl (fun acc b => acc * 256 + b) 0

/-- `struct.unpack('<1l', bytes)`: little-endian signed 32-bit value. -/
def int32_le (b0 b1 b2 b3 : Nat) : Int :=
  let v := b0 + 256 * b1 + 65536 * b2 + 16777216 * b3
  if v ≥ 2147483648 then (v : Int) - 4294967296 else (v : Int)

/-- `np.frombuffer(bytes, dtype=np.uint16)`: consecutive byte pairs as
little-endian uint16 values (native byte order on the x86/ARM hosts the
reader targets). -/
def u16_pairs : List Nat → List Nat
  | a :: b :: rest => (a + 256 * b) :: u16_pairs rest
  | _ => []

/-- `_read_data_packet`: receive one datagram (`none` models no datagram
before the socket timeout), parse bytes 0-3 with `struct.unpack('<1l', ...)`,
parse bytes 4-9 with `struct.unpack('>Q', b'\x00\x00' + data[4:10][::-1])`,
and view the remainder as uint16 samples. -/
def read_data_packet (datagram : Option (List Nat)) :
    Except DcaErr (Int × Nat × List Nat) :=
  match datagram with
  | none => .error .ProtocolTimeout
  | some data =>
    if data.length < 4 then .error .MalformedPacket
    else
      let packet_num := int32_le (data.getD 0 0) (data.getD 1 0) (data.getD 2 0) (data.getD 3 0)
      if data.length < 10 then .error .MalformedPacket
      else
        let byte_count := be_u64 ([0, 0] ++ ((data.drop 4).take 6).reverse)
        if (data.length - 10) % 2 ≠ 0 then .error .OddPayload
        else .ok (packet_num, byte_count, u16_pairs (data.drop 10))

/-- Test harness feeding a sequence of received packets
`(time, byte_count, payload)` to the reassembly engine in order,
collecting every completed frame the per-packet calls return. -/
def feed_packets (F : Nat) : FrameMap → List (ℚ × Nat × List Nat) →
    FrameMap × List (Nat × List Nat)
  | m, [] => (m, [])
  | m, (now, bc, pl) :: rest =>
    let r := place_data_packet F now m bc pl
    let r2 := feed_packets F r.1 rest
    (r2.1, (match r.2 with | some x => [x] | none => []) ++ r2.2)

/-- `DCA1000.read`: repeatedly read a packet and place it in the frame
buffer; when a packet completes a frame, delete stale incomplete frames
with `timeout_incomplete_frames = self.frame_period_seconds * 2` and
return the dropped ids together with the frame.  The incoming packets are
the sequence of datagrams `(time, byte_count, payload)` the data socket
delivers; `none` is returned when they run out (socket timeout). -/
def dca_read (F : Nat) (fps : ℚ) : List (ℚ × Nat × List Nat) → FrameMap →
    Option (FrameMap × List Nat × (Nat × List Nat))
  | [], _ => none
  | (now, bc, pl) :: rest, m =>
    let timeout_incomplete_frames := fps * 2
    let r := place_data_packet F now m bc pl
    match r.2 with
    | some fr =>
      let d := delete_incomplete_frames now timeout_incomplete_frames r.1
      some (d.1, d.2, fr)
    | none => dca_read F fps rest r.1

/-! ### Radar CLI send-and-listen cycle

Source: adc_reader/utils/radar_cli.py, `_send_and_listen` (lines 112-158). -/

/-- Substring test: Python `pat in s` on the character list. -/
def containsSub (l pat : List Char) : Bool :=
  pat.isPrefixOf l ||
    match l with
    | [] => false
    | _ :: t => containsSub t pat

/-- Python `pat in s` for strings. -/
def strContains (s pat : String) : Bool := containsSub s.toList pat.toList

/-- The polling loop of `_send_and_listen`: each element of `polls` is the
value of `self.last_received_data` at one 100 ms poll (the empty string
standing for both None and an empty line, which are falsy); the list length
is the number of polls that fit before `end_time`.  A poll containing
"Done" returns True; otherwise a poll containing "Error" breaks out of the
loop and the function returns False; when the polls are exhausted
(timeout) it returns False. -/
def send_and_listen_polls : List String → Bool
  | [] => false
  | line :: rest =>
    if line ≠ "" then
      if strContains line "Done" then true
      else if strContains line "Error" then false
      else send_and_listen_polls rest
    else send_and_listen_polls rest

/-! ### Radar configuration parser

Source: xwrl6432_adc_reader.py, `_parse_radar_config` (lines 296-345).
The parser is modelled over Python's dynamic value semantics, because the
source stores `vals[3]` of the frameCfg line without an `int(...)`
conversion and later multiplies it: a Python `int * str` is string
repetition, not integer multiplication. -/

/-- A Python value: an integer or a string. -/
inductive PyVal where
  | int (n : Int)
  | str (s : String)
deriving DecidableEq, Repr

/-- Python `*` on the modelled values: `int * int` is multiplication and
`int * str` is string repetition (an empty string for a non-positive
count); other combinations do not occur in the parser. -/
def py_mul : PyVal → PyVal → Option PyVal
  | .int a, .int b => some (.int (a * b))
  | .int a, .str s =>
    some (.str (String.join (List.replicate a.toNat s)))
  | _, _ => none

/-- Decimal digit value of a character. -/
def digit_val (c : Char) : Option Nat :=
  if '0' ≤ c ∧ c ≤ '9' then some (c.toNat - '0'.toNat) else none

/-- Accumulating decimal parse of a digit run. -/
def parse_nat_go : List Char → Nat → Option Nat
  | [], acc => some acc
  | c :: t, acc =>
    match digit_val c with
    | some d => parse_nat_go t (acc * 10 + d)
    | none => none

/-- Python `int(token)` on a plain decimal token, optionally signed
(none models the ValueError on a malformed token). -/
def py_int (s : String) : Option Int :=
  match s.toList with
  | [] => none
  | '-' :: t => if t.isEmpty then none else (parse_nat_go t 0).map (fun n => -(n : Int))
  | l => (parse_nat_go l 0).map (fun n => (n : Int))

/-- Python `str.startswith(pat)`. -/
def py_startswith (s pat : String) : Bool := pat.toList.isPrefixOf s.toList

/-- Whitespace-splitting of Python `str.split()` (no argument): runs of
whitespace separate tokens, leading/trailing whitespace is dropped.  The
accumulator carries the current token reversed. -/
def py_split_tokens : List Char → List Char → List (List Char)
  | [], acc => if acc.isEmpty then [] else [acc.reverse]
  | c :: t, acc =>
    if c.isWhitespace then
      if acc.isEmpty then py_split_tokens t [] else acc.reverse :: py_split_tokens t []
    else py_split_tokens t (c :: acc)

/-- Python `line.split()`. -/
def py_split (s : String) : List String :=
  (py_split_tokens s.toList []).map (fun cs => String.mk cs)

/-- Python `line.strip()`. -/
def py_strip (s : String) : String :=
  String.mk (((s.toList.dropWhile Char.isWhitespace).reverse.dropWhile Char.isWhitespace).reverse)

/-- Python `bin(int(token)).count('1')`: the number of ones in the binary
expansion of the magnitude (every set bit of `m` has index below `m`). -/
def popcount_token (s : String) : Option Nat :=
  (py_int s).map (fun n => (List.range n.natAbs).countP (fun i => n.natAbs.testBit i))

/-- Accumulated parser state: the six local variables of
`_parse_radar_config`, each a Python value (all initialised to int 0;
`num_bursts_per_frame` is the one later assigned a string). -/
structure ParseState where
  num_rx_ant : Nat
  num_tx_ant : Nat
  num_adc_samples : Int
  num_chirps_per_burst : Int
  num_bursts_per_frame : PyVal
deriving DecidableEq, Repr

/-- One line of the loop body of `_parse_radar_config`: the line is
whitespace-split into `parts`; `vals = parts[1:]`; the three recognised
directives update the state (ChannelCfg: popcounts of the rx/tx masks;
chirpComnCfg: `int(vals[3])`; frameCfg: `int(vals[0])` and the *unconverted*
`vals[3]`).  Indexing past the end of `vals` is an IndexError (none). -/
def parse_config_line (st : ParseState) (line : String) : Option ParseState :=
  let stripped := py_strip line
  let parts := py_split stripped
  let vals := parts.drop 1
  if py_startswith stripped "ChannelCfg" then
    match vals[0]?, vals[1]? with
    | some v0, some v1 =>
      match popcount_token v0, popcount_token v1 with
      | some rx, some tx => some { st with num_rx_ant := rx, num_tx_ant := tx }
      | _, _ => none
    | _, _ => none
  else if py_startswith stripped "chirpComnCfg" then
    match vals[3]? with
    | some v3 =>
      match py_int v3 with
      | some n => some { st with num_adc_samples := n }
      | none => none
    | none => none
  else if py_startswith stripped "frameCfg" then
    match vals[0]?, vals[3]? with
    | some v0, some v3 =>
      match py_int v0 with
      | some n =>
        some { st with num_chirps_per_burst := n, num_bursts_per_frame := .str v3 }
      | none => none
    | _, _ => none
  else some st

/-- `_parse_radar_config` over the lines of the file: fold the loop body,
then return `(chirps_per_frame, num_tx_ant, num_rx_ant, num_adc_samples)`
with `chirps_per_frame = num_chirps_per_burst * num_bursts_per_frame`
computed with Python `*`. -/
def parse_radar_config (lines : List String) : Option (PyVal × Nat × Nat × Int) := do
  let st0 : ParseState := ⟨0, 0, 0, 0, .int 0⟩
  let st ← lines.foldlM parse_config_line st0
  let chirps ← py_mul (.int st.num_chirps_per_burst) st.num_bursts_per_frame
  return (chirps, st.num_tx_ant, st.num_rx_ant, st.num_adc_samples)

/-! ### Orchestrator hardware initialization

Source: xwrl6432_adc_reader.py `_init_hardware` (lines 229-258) /
`start_acquisition` (lines 164-184), and DCA1000.__init__
(adc_reader/utils/adc.py lines 106-127). -/

/-- The number of parameters of `DCA1000.__init__` (after self) that have
no default value: num_chirp_loops, num_rx_ant, num_tx_ant,
num_adc_samples, frame_period. -/
def dca1000_required_params : Nat := 5

/-- The number of positional arguments `_init_hardware` passes to
`DCA1000(...)`: `self.num_chirp_loops, self.num_rx_ant, self.num_tx_ant,
self.num_adc_samples`. -/
def init_hardware_dca_args : Nat := 4

/-- Python call binding for positional arguments only: every
no-default parameter must be supplied (a TypeError is raised otherwise). -/
def py_call_binds (required given : Nat) : Bool := decide (required ≤ given)

/-- The `cli`/`dca` fields of the reader (true when the attribute holds an
object, false when it is None). -/
structure ReaderState where
  cli : Bool
  dca : Bool
deriving DecidableEq, Repr

/-- `_init_hardware`: returns the new state and whether an exception
propagated.  `cli_config_ok` is whether `RadarCLI(...)` construction and
`send_config` succeed.  The DCA1000 construction succeeds only if the call
binds; on failure `self.dca = None` and the exception is re-raised. -/
def init_hardware (s : ReaderState) (cli_config_ok : Bool) : ReaderState × Bool :=
  if s.cli ∧ s.dca then (s, false)
  else
    if cli_config_ok then
      let s1 : ReaderState := { s with cli := true }
      if py_call_binds dca1000_required_params init_hardware_dca_args then
        ({ s1 with dca := true }, false)
      else
        ({ s1 with dca := false }, true)
    else ({ s with cli := false }, true)

/-- `start_acquisition`: lazily initialise the hardware when `cli` or `dca`
is None; any exception is caught (printed) and acquisition does not start;
if after initialization `cli` or `dca` is still None, acquisition does not
start; otherwise the stream is started.  Returns the state and whether
acquisition started. -/
def start_acquisition (s : ReaderState) (cli_config_ok : Bool) : ReaderState × Bool :=
  if ¬s.cli ∨ ¬s.dca then
    let r := init_hardware s cli_config_ok
    if r.2 then (r.1, false)
    else if ¬r.1.cli ∨ ¬r.1.dca then (r.1, false)
    else (r.1, true)
  else (s, true)

/-! ### Raw-data interpretation

Source: xwrl6432_adc_reader.py, `_interpret_raw_data` (lines 260-294).
The numpy arrays are modelled by their row-major index semantics; the
float32 buffer by exact integers (every value involved lies in
[-4096, 4095], where float32 arithmetic is exact). -/

/-- Row-major view of the flat unswizzled data as
`np.reshape(data, [num_chirp_loops, num_tx, num_adc_samples, num_rx])`. -/
def reshape_CTAR (T A R : Nat) (flat : List Nat) : Nat → Nat → Nat → Nat → Nat :=
  fun c t s r => flat.getD (((c * T + t) * A + s) * R + r) 0

/-- `np.transpose(data, [0, 2, 1, 3])`. -/
def transpose_0213 (d : Nat → Nat → Nat → Nat → Nat) : Nat → Nat → Nat → Nat → Nat :=
  fun c s t r => d c t s r

/-- `np.reshape(data, [C, A, T*R])`: merge the trailing two axes; virtual
channel `ch` decomposes as `t = ch / R`, `r = ch % R` (tx-major). -/
def merge_last_axes (R : Nat) (d : Nat → Nat → Nat → Nat → Nat) : Nat → Nat → Nat → Nat :=
  fun c s ch => d c s (ch / R) (ch % R)

/-- `data.swapaxes(1, 2)`. -/
def swap_axes_12 (d : Nat → Nat → Nat → Nat) : Nat → Nat → Nat → Nat :=
  fun c ch s => d c s ch

/-- The signed conversion applied to the float32 copy:
`data[data > 2047] -= 2**12`. -/
def signed_convert (v : Nat) : Int :=
  if v > 2047 then (v : Int) - 4096 else (v : Int)

/-- `_interpret_raw_data`: unswizzle, reshape/transpose/reshape/swapaxes,
cast to float (a fresh buffer) and apply the signed conversion elementwise.
The result maps `(chirp_loop, channel, sample)` to the signed value; `none`
models the unswizzle assertion failure or a reshape size mismatch. -/
def interpret_raw_data (C T A R : Nat) (raw : List Nat) :
    Option (Nat → Nat → Nat → Int) :=
  match unswizzle_rdif_data raw with
  | none => none
  | some flat =>
    if flat.length = C * T * A * R then
      some (fun c ch s =>
        signed_convert (swap_axes_12 (merge_last_axes R (transpose_0213 (reshape_CTAR T A R flat))) c ch s))
    else none

/-! ### Claim theorems -/

/-- C10: with cli and dca uninitialized and the radar CLI configuration
succeeding, `_init_hardware` always raises: the DCA1000 constructor call
supplies 4 positional arguments while 5 parameters (including
frame_period) have no default, so the construction fails, `self.dca`
stays None and the exception propagates; `start_acquisition` therefore
never starts acquisition through first-time hardware initialization. -/
theorem init_hardware_always_raises :
    py_call_binds dca1000_required_params init_hardware_dca_args = false ∧
    init_hardware ⟨false, false⟩ true = (⟨true, false⟩, true) ∧
    start_acquisition ⟨false, false⟩ true = (⟨true, false⟩, false) := by
  decide

/-- C4 (code evaluated at the failing input): on a well-formed
configuration with chirpsPerBurst = 2 and burstsPerFrame = 4 the parser
returns chirps-per-frame as the Python string "44" — the unconverted
`vals[3]` token repeated by an integer — rather than the integer product
8 promised by its declared return type `tuple[int, int, int, int]`; the
antenna popcounts (rx mask 7 → 3, tx mask 3 → 2) and the ADC sample
count are returned correctly. -/
theorem parse_radar_config_failing_input :
    parse_radar_config
      ["ChannelCfg 7 3 0", "chirpComnCfg 8 0 0 64 4 0", "frameCfg 2 0 0 4 0 0"] =
      some (.str "44", 2, 3, 64) ∧ PyVal.str "44" ≠ PyVal.int 8 := by
  constructor
  · decide
  · decide

/-- C8: `_read_data_packet` fails with ProtocolTimeout when no datagram
arrives within the socket timeout, and with MalformedPacket for every
received datagram of fewer than 10 header bytes. -/
theorem read_data_packet_errors :
    read_data_packet none = Except.error DcaErr.ProtocolTimeout ∧
    ∀ data : List Nat, data.length < 10 →
      read_data_packet (some data) = Except.error DcaErr.MalformedPacket := by
  refine ⟨rfl, ?_⟩
  intro data h
  unfold read_data_packet
  by_cases h4 : data.length < 4
  · simp [h4]
  · simp [h4, h]

theorem read_data_packet_errors_witness :
    read_data_packet none = Except.error DcaErr.ProtocolTimeout ∧
    read_data_packet (some [1, 2, 3, 4, 5]) = Except.error DcaErr.MalformedPacket :=
  ⟨read_data_packet_errors.1, read_data_packet_errors.2 [1, 2, 3, 4, 5] (by decide)⟩

/-- Modelled from the spec's words, for comparison with the code: the
byte-count field of a data datagram parsed as a big-endian 48-bit
integer, as the claim asserts (byte 4 most significant). -/
def byte_count_spec_bigendian (b4 b5 b6 b7 b8 b9 : Nat) : Nat :=
  ((((b4 * 256 + b5) * 256 + b6) * 256 + b7) * 256 + b8) * 256 + b9

/-- C5 counterexample: on the 10-byte datagram whose byte-count field is
[1,0,0,0,0,0], the code computes byte_count = 1 (it reverses the six
bytes before the big-endian unpack, i.e. a little-endian read), while the
big-endian parse the claim describes yields 2^40. -/
theorem read_data_packet_bigendian_counterexample :
    read_data_packet (some [0, 0, 0, 0, 1, 0, 0, 0, 0, 0]) = Except.ok (0, 1, []) ∧
    byte_count_spec_bigendian 1 0 0 0 0 0 = 1099511627776 ∧
    (1 : Nat) ≠ 1099511627776 :=
  ⟨rfl, by norm_num [byte_count_spec_bigendian], by norm_num⟩

/-- C5 (amended): for every received datagram of at least 10 bytes whose
payload byte count is even, `_read_data_packet` parses bytes 0-3 as a
little-endian signed 32-bit packet sequence number, bytes 4-9 as a
LITTLE-endian 48-bit cumulative byte count zero-extended to 64 bits (the
code reverses the six bytes and prepends two zero bytes before a
big-endian 64-bit unpack, which is a little-endian read), and the
remaining bytes as little-endian uint16 samples. -/
theorem read_data_packet_parses (b0 b1 b2 b3 b4 b5 b6 b7 b8 b9 : Nat) (rest : List Nat)
    (hbytes : ∀ x ∈ [b0, b1, b2, b3, b4, b5, b6, b7, b8, b9], x < 256)
    (hrest : ∀ x ∈ rest, x < 256) (heven : rest.length % 2 = 0) :
    read_data_packet
        (some (b0 :: b1 :: b2 :: b3 :: b4 :: b5 :: b6 :: b7 :: b8 :: b9 :: rest)) =
      Except.ok (int32_le b0 b1 b2 b3,
        b4 + 256 * b5 + 65536 * b6 + 16777216 * b7 +
          4294967296 * b8 + 1099511627776 * b9,
        u16_pairs rest) := by
  have step : read_data_packet
      (some (b0 :: b1 :: b2 :: b3 :: b4 :: b5 :: b6 :: b7 :: b8 :: b9 :: rest)) =
      (if (b0 :: b1 :: b2 :: b3 :: b4 :: b5 :: b6 :: b7 :: b8 :: b9 :: rest).length < 4 then
        Except.error DcaErr.MalformedPacket
      else if (b0 :: b1 :: b2 :: b3 :: b4 :: b5 :: b6 :: b7 :: b8 :: b9 :: rest).length < 10 then
        Except.error DcaErr.MalformedPacket
      else if ((b0 :: b1 :: b2 :: b3 :: b4 :: b5 :: b6 :: b7 :: b8 :: b9 :: rest).length - 10) % 2 ≠ 0 then
        Except.error DcaErr.OddPayload
      else
        Except.ok (int32_le b0 b1 b2 b3, be_u64 [0, 0, b9, b8, b7, b6, b5, b4],
          u16_pairs rest)) := rfl
  have hbc : be_u64 [0, 0, b9, b8, b7, b6, b5, b4] =
      b4 + 256 * b5 + 65536 * b6 + 16777216 * b7 + 4294967296 * b8 + 1099511627776 * b9 := by
    simp only [be_u64, List.foldl]
    ring
  rw [step, if_neg (by simp), if_neg (by simp),
    if_neg (by simp only [List.length_cons]; omega), hbc]

theorem read_data_packet_parses_witness :
    read_data_packet (some [1, 0, 0, 0, 2, 1, 0, 0, 0, 0, 7, 1]) =
      Except.ok (1, 258, [263]) := by
  rw [read_data_packet_parses 1 0 0 0 2 1 0 0 0 0 [7, 1]
    (by decide) (by decide) (by decide)]
  rfl

/-- C9 counterexample: a polled line containing both keywords, such as
"Done Error", contains "Error" yet makes `_send_and_listen` return True
(the "Done" check runs first), contradicting the claim that observing a
line containing "Error" returns false. -/
theorem send_and_listen_error_counterexample :
    send_and_listen_polls ["Done Error"] = true ∧
    strContains "Done Error" "Error" = true := by
  constructor
  · rfl
  · rfl

/-- C9 (amended): the first polled line containing a keyword decides the
result.  If no polled line contains "Done" before the timeout exhausts the
polls, the cycle returns false; if, after polls that are empty or contain
neither keyword, a line containing "Done" is observed, it returns true;
if such a line contains "Error" but not "Done", it returns false
immediately — the polls that would have followed within the timeout are
never consulted. -/
theorem send_and_listen_cycle (polls pre rest : List String) (line : String)
    (hneutral : ∀ l ∈ pre,
      l = "" ∨ (strContains l "Done" = false ∧ strContains l "Error" = false)) :
    ((∀ l ∈ polls, strContains l "Done" = false) → send_and_listen_polls polls = false) ∧
    (line ≠ "" → strContains line "Done" = true →
      send_and_listen_polls (pre ++ line :: rest) = true) ∧
    (line ≠ "" → strContains line "Error" = true → strContains line "Done" = false →
      send_and_listen_polls (pre ++ line :: rest) = false) := by
  refine ⟨?_, ?_, ?_⟩
  · intro hnd
    clear hneutral
    induction polls with
    | nil => rfl
    | cons l rest ih =>
      have hl := hnd l (List.mem_cons_self _ _)
      have hrest : ∀ x ∈ rest, strContains x "Done" = false := by
        intro x hx
        exact hnd x (List.mem_cons_of_mem _ hx)
      unfold send_and_listen_polls
      by_cases he : l = ""
      · simp [he, ih hrest]
      · simp [he, hl]
        by_cases herr : strContains l "Error" = true
        · simp [herr]
        · simp [herr, ih hrest]
  · intro hne hdone
    induction pre with
    | nil => simp [send_and_listen_polls, hne, hdone]
    | cons l t ih =>
      have hl := hneutral l (List.mem_cons_self _ _)
      have ht : ∀ x ∈ t,
          x = "" ∨ (strContains x "Done" = false ∧ strContains x "Error" = false) := by
        intro x hx
        exact hneutral x (List.mem_cons_of_mem _ hx)
      have ih2 := ih ht
      unfold send_and_listen_polls
      rcases hl with hl | ⟨hl1, hl2⟩
      · simpa [hl] using ih2
      · simpa [hl1, hl2] using ih2
  · intro hne herr hnotdone
    induction pre with
    | nil => simp [send_and_listen_polls, hne, herr, hnotdone]
    | cons l t ih =>
      have hl := hneutral l (List.mem_cons_self _ _)
      have ht : ∀ x ∈ t,
          x = "" ∨ (strContains x "Done" = false ∧ strContains x "Error" = false) := by
        intro x hx
        exact hneutral x (List.mem_cons_of_mem _ hx)
      have ih2 := ih ht
      unfold send_and_listen_polls
      rcases hl with hl | ⟨hl1, hl2⟩
      · simpa [hl] using ih2
      · simpa [hl1, hl2] using ih2

theorem send_and_listen_cycle_witness :
    send_and_listen_polls ["", "booting", "cfg Done", "junk"] = true ∧
    send_and_listen_polls ["", "booting", "cfg Error", "junk"] = false ∧
    send_and_listen_polls ["", "nope"] = false :=
  ⟨(send_and_listen_cycle [] ["", "booting"] ["junk"] "cfg Done" (by decide)).2.1
      (by decide) (by decide),
   (send_and_listen_cycle [] ["", "booting"] ["junk"] "cfg Error" (by decide)).2.2
      (by decide) (by decide) (by decide),
   (send_and_listen_cycle ["", "nope"] [] [] "" (by decide)).1 (by decide)⟩

/-- C7: the signed conversion subtracts 4096 from exactly the decoded
values above 2047 (4095 → -1, 2047 → 2047, 2048 → -2048, 0 → 0), and it
is applied elementwise to the reshaped view of the unswizzled buffer —
the output at (chirp, channel, sample) is the signed conversion of the
unswizzled word at the composed row-major index, and the unswizzled
integer buffer itself is exactly the unmodified decoder output. -/
lemma interpret_raw_data_eq (C T A R : Nat) (raw : List Nat) (flat : List Nat)
    (h : unswizzle_rdif_data raw = some flat) :
    interpret_raw_data C T A R raw =
      if flat.length = C * T * A * R then
        some (fun c ch s =>
          signed_convert (swap_axes_12 (merge_last_axes R
            (transpose_0213 (reshape_CTAR T A R flat))) c ch s))
      else none := by
  unfold interpret_raw_data
  rw [h]

theorem interpret_raw_data_signed (C T A R : Nat) (raw : List Nat)
    (hne : raw.length ≠ 0) (hmod : raw.length % 4 = 0)
    (hsize : raw.length = C * T * A * R) :
    ∃ flat, unswizzle_rdif_data raw = some flat ∧ flat.length = raw.length ∧
      interpret_raw_data C T A R raw ≠ none ∧
      (∀ out, interpret_raw_data C T A R raw = some out →
        ∀ c ch s, out c ch s =
          signed_convert (flat.getD (((c * T + ch / R) * A + s) * R + ch % R) 0)) ∧
      signed_convert 4095 = -1 ∧ signed_convert 2047 = 2047 ∧
      signed_convert 2048 = -2048 ∧ signed_convert 0 = 0 ∧
      (∀ v, v ≤ 2047 → signed_convert v = (v : Int)) ∧
      (∀ v, 2047 < v → signed_convert v = (v : Int) - 4096) := by
  have hlen16 : (raw.map (· % 65536)).length = raw.length := by simp
  have hsome : unswizzle_rdif_data raw = some (unswizzle_go (raw.map (· % 65536))) := by
    unfold unswizzle_rdif_data
    rw [if_pos]
    rw [hlen16]
    exact ⟨hne, hmod⟩
  obtain ⟨glen, -⟩ := unswizzle_go_spec (raw.length / 4) (raw.map (· % 65536))
    (by rw [hlen16]; omega)
  have hflatlen : (unswizzle_go (raw.map (· % 65536))).length = raw.length := by
    rw [glen, hlen16]
  refine ⟨unswizzle_go (raw.map (· % 65536)), hsome, hflatlen, ?_, ?_, by decide, by decide,
    by decide, by decide, ?_, ?_⟩
  · rw [interpret_raw_data_eq C T A R raw _ hsome, if_pos (by rw [hflatlen, hsize])]
    exact Option.some_ne_none _
  · intro out hout c ch s
    rw [interpret_raw_data_eq C T A R raw _ hsome,
      if_pos (by rw [hflatlen, hsize])] at hout
    have := Option.some.inj hout
    rw [← this]
    rfl
  · intro v hv
    unfold signed_convert
    rw [if_neg (by omega)]
  · intro v hv
    unfold signed_convert
    rw [if_pos (by omega)]

theorem interpret_raw_data_signed_witness :
    ∃ flat, unswizzle_rdif_data [4095, 4095, 4095, 4095] = some flat ∧
      flat.length = ([4095, 4095, 4095, 4095] : List Nat).length ∧
      interpret_raw_data 1 1 1 4 [4095, 4095, 4095, 4095] ≠ none ∧
      (∀ out, interpret_raw_data 1 1 1 4 [4095, 4095, 4095, 4095] = some out →
        ∀ c ch s, out c ch s =
          signed_convert (flat.getD (((c * 1 + ch / 4) * 1 + s) * 4 + ch % 4) 0)) ∧
      signed_convert 4095 = -1 ∧ signed_convert 2047 = 2047 ∧
      signed_convert 2048 = -2048 ∧ signed_convert 0 = 0 ∧
      (∀ v, v ≤ 2047 → signed_convert v = (v : Int)) ∧
      (∀ v, 2047 < v → signed_convert v = (v : Int) - 4096) :=
  interpret_raw_data_signed 1 1 1 4 [4095, 4095, 4095, 4095]
    (by decide) (by decide) (by decide)

/-- C6 counterexample: with two-sample frames, a pending frame 0 missing
only its last sample, and a packet at byte offset 2 carrying 3 samples,
draining the packet completes frame 0 first and then frame 1; the call
returns frame 1 — the last completion — not the first one (frame 0). -/
theorem place_data_packet_first_completion_counterexample :
    place_data_packet 2 0 [(0, ⟨[5, 0], [true, false], 0⟩)] 2 [6, 7, 8] =
      ([], some (1, [7, 8])) ∧
    place_loop_completions 2 0 3 [(0, ⟨[5, 0], [true, false], 0⟩)] 1 0 [6, 7, 8] 3 =
      [(0, [5, 6]), (1, [7, 8])] ∧
    some ((1 : Nat), [7, 8]) ≠ some ((0 : Nat), [5, 6]) := by
  refine ⟨rfl, rfl, by decide⟩

lemma getLast?_cons_or {α : Type} (a : α) (l : List α) :
    (a :: l).getLast? =
      match l.getLast? with
      | some y => some y
      | none => some a := by
  cases l with
  | nil => rfl
  | cons b t =>
    rw [List.getLast?_cons_cons]
    cases h : (b :: t).getLast? with
    | none =>
      exfalso
      have := List.getLast?_isSome.mpr (List.cons_ne_nil b t)
      rw [h] at this
      simp at this
    | some y => rfl

/-- The loop's result accumulator ends as the last recorded completion,
falling back to the incoming accumulator when none occur. -/
lemma place_loop_result_last (F : Nat) (now : ℚ) (pl : List Nat) :
    ∀ fuel m offset idx rem acc,
      (place_loop F now fuel m offset idx pl rem acc).2 =
        match (place_loop_completions F now fuel m offset idx pl rem).getLast? with
        | some x => some x
        | none => acc := by
  intro fuel
  induction fuel with
  | zero => intro m offset idx rem acc; rfl
  | succ fuel ih =>
    intro m offset idx rem acc
    by_cases h : 0 < rem
    · simp only [place_loop, place_loop_completions, if_pos h]
      by_cases hc : min rem (F - offset % F) = 0
      · simp only [if_pos hc]
        rfl
      · simp only [if_neg hc]
        by_cases hall :
            (writeRange ((lookupFB m (offset / F)).getD (newFrameBuf F now)).filled
              (offset % F) (List.replicate (min rem (F - offset % F)) true)).all
              (fun b => b) = true
        · rw [if_pos hall, if_pos hall, ih, getLast?_cons_or]
          cases (place_loop_completions F now fuel _ _ _ pl _).getLast? with
          | none => rfl
          | some y => rfl
        · rw [if_neg hall, if_neg hall, ih]
    · simp only [place_loop, place_loop_completions, if_neg h]
      rfl

lemma place_completions_zero_rem (F : Nat) (now : ℚ) (pl : List Nat) :
    ∀ fuel m offset idx, place_loop_completions F now fuel m offset idx pl 0 = [] := by
  intro fuel m offset idx
  cases fuel with
  | zero => rfl
  | succ g => rfl

/-- Every frame completed while draining a packet has id at least the
frame id of the current offset. -/
lemma place_completions_ge (F : Nat) (now : ℚ) (pl : List Nat) :
    ∀ fuel m offset idx rem x,
      x ∈ place_loop_completions F now fuel m offset idx pl rem → offset / F ≤ x.1 := by
  intro fuel
  induction fuel with
  | zero => intro m offset idx rem x hx; simp [place_loop_completions] at hx
  | succ fuel ih =>
    intro m offset idx rem x hx
    by_cases h : 0 < rem
    · simp only [place_loop_completions, if_pos h] at hx
      by_cases hc : min rem (F - offset % F) = 0
      · rw [if_pos hc] at hx
        simp at hx
      · rw [if_neg hc] at hx
        have hstep : offset / F ≤ (offset + min rem (F - offset % F)) / F :=
          Nat.div_le_div_right (Nat.le_add_right _ _)
        by_cases hall :
            (writeRange ((lookupFB m (offset / F)).getD (newFrameBuf F now)).filled
              (offset % F) (List.replicate (min rem (F - offset % F)) true)).all
              (fun b => b) = true
        · rw [if_pos hall] at hx
          rcases List.mem_cons.mp hx with hx | hx
          · rw [hx]
          · exact le_trans hstep (ih _ _ _ _ _ hx)
        · rw [if_neg hall] at hx
          exact le_trans hstep (ih _ _ _ _ _ hx)
    · simp only [place_loop_completions, if_neg h] at hx
      simp at hx

/-- When the loop continues past a chunk, the next offset starts the next
frame: the chunk reached the frame end. -/
lemma next_offset_div (F offset rem : Nat) (hc : min rem (F - offset % F) ≠ 0)
    (hcont : 0 < rem - min rem (F - offset % F)) :
    (offset + min rem (F - offset % F)) / F = offset / F + 1 := by
  have hFpos : 0 < F := by omega
  have hchunk : min rem (F - offset % F) = F - offset % F := by omega
  have hmod : offset % F < F := Nat.mod_lt _ hFpos
  have hdm : F * (offset / F) + offset % F = offset := Nat.div_add_mod offset F
  have h1 : offset + (F - offset % F) = F * (offset / F + 1) := by
    calc offset + (F - offset % F)
        = F * (offset / F) + offset % F + (F - offset % F) := by rw [hdm]
    _ = F * (offset / F) + F := by omega
    _ = F * (offset / F + 1) := by ring
  rw [hchunk, h1, Nat.mul_div_cancel_left _ hFpos]

/-- The ids of the completions recorded while draining one packet are
strictly increasing in loop order. -/
lemma place_completions_pairwise (F : Nat) (now : ℚ) (pl : List Nat) :
    ∀ fuel m offset idx rem,
      List.Pairwise (fun a b => a.1 < b.1)
        (place_loop_completions F now fuel m offset idx pl rem) := by
  intro fuel
  induction fuel with
  | zero => intro m offset idx rem; exact List.Pairwise.nil
  | succ fuel ih =>
    intro m offset idx rem
    by_cases h : 0 < rem
    · simp only [place_loop_completions, if_pos h]
      by_cases hc : min rem (F - offset % F) = 0
      · rw [if_pos hc]
        exact List.Pairwise.nil
      · rw [if_neg hc]
        by_cases hall :
            (writeRange ((lookupFB m (offset / F)).getD (newFrameBuf F now)).filled
              (offset % F) (List.replicate (min rem (F - offset % F)) true)).all
              (fun b => b) = true
        · rw [if_pos hall]
          refine List.Pairwise.cons ?_ (ih _ _ _ _)
          intro y hy
          by_cases hcont : 0 < rem - min rem (F - offset % F)
          · have hge := place_completions_ge F now pl fuel _ _ _ _ y hy
            rw [next_offset_div F offset rem hc hcont] at hge
            omega
          · have hzero : rem - min rem (F - offset % F) = 0 := by omega
            rw [hzero, place_completions_zero_rem] at hy
            simp at hy
        · rw [if_neg hall]
          exact ih _ _ _ _
    · simp only [place_loop_completions, if_neg h]
      exact List.Pairwise.nil

/-- C6 (amended): when draining a single packet completes several frames,
the call returns the LAST frame that completes (the one with the highest
frame id / latest offset), not the first: the result is the final element
of the strictly-id-increasing completion sequence of the packet loop. -/
theorem place_data_packet_returns_last_completion (F : Nat) (now : ℚ) (m : FrameMap)
    (bc : Nat) (pl : List Nat) :
    (place_data_packet F now m bc pl).2 =
      (place_loop_completions F now pl.length m (bc / 2) 0 pl pl.length).getLast? ∧
    List.Pairwise (fun a b => a < b)
      ((place_loop_completions F now pl.length m (bc / 2) 0 pl pl.length).map
        (fun x => x.1)) := by
  constructor
  · rw [place_data_packet, place_loop_result_last]
    cases (place_loop_completions F now pl.length m (bc / 2) 0 pl pl.length).getLast? with
    | none => rfl
    | some x => rfl
  · rw [List.pairwise_map]
    exact place_completions_pairwise F now pl pl.length m (bc / 2) 0 pl.length

/-! ### Exact-cover reassembly (C2 support) -/

/-- Whether the packet `(time, byte_count, payload)` covers absolute
uint16 offset `o` (its sample range is `[byte_count/2, byte_count/2+len)`). -/
def pkt_covers (p : ℚ × Nat × List Nat) (o : Nat) : Bool :=
  decide (p.2.1 / 2 ≤ o) && decide (o < p.2.1 / 2 + p.2.2.length)

/-- The sample a packet sequence supplies at offset `o`: the payload entry
of the first covering packet (unique under exactly-once coverage). -/
def sampleAt (ps : List (ℚ × Nat × List Nat)) (o : Nat) : Nat :=
  match ps.find? (fun p => pkt_covers p o) with
  | some p => p.2.2.getD (o - p.2.1 / 2) 0
  | none => 0

/-- The frame-0 buffer holding value `g o` at every offset `o` with
`cov o` set and untouched elsewhere. -/
def bufOf (F : Nat) (cov : Nat → Bool) (g : Nat → Nat) (t : ℚ) : FrameBuf :=
  ⟨(List.range F).map (fun o => if cov o then g o else 0),
   (List.range F).map cov, t⟩

lemma writeRange_getElem? {α : Type} (l : List α) (s : Nat) (vals : List α) (i : Nat)
    (h : s + vals.length ≤ l.length) :
    (writeRange l s vals)[i]? =
      if s ≤ i ∧ i < s + vals.length then vals[i - s]? else l[i]? := by
  unfold writeRange
  have hts : (l.take s).length = s := by
    rw [List.length_take]
    omega
  have htv : (l.take s ++ vals).length = s + vals.length := by
    rw [List.length_append, hts]
  by_cases h1 : i < s
  · rw [List.getElem?_append,
      if_pos (show i < (l.take s ++ vals).length by rw [htv]; omega)]
    rw [List.getElem?_append, if_pos (show i < (l.take s).length by rw [hts]; omega)]
    rw [List.getElem?_take, if_pos h1,
      if_neg (show ¬(s ≤ i ∧ i < s + vals.length) by omega)]
  · by_cases h2 : i < s + vals.length
    · rw [List.getElem?_append,
        if_pos (show i < (l.take s ++ vals).length by rw [htv]; omega)]
      rw [List.getElem?_append,
        if_neg (show ¬ i < (l.take s).length by rw [hts]; omega), hts]
      rw [if_pos (show s ≤ i ∧ i < s + vals.length by omega)]
    · rw [List.getElem?_append,
        if_neg (show ¬ i < (l.take s ++ vals).length by rw [htv]; omega), htv]
      rw [List.getElem?_drop,
        if_neg (show ¬(s ≤ i ∧ i < s + vals.length) by omega)]
      congr 1
      omega

lemma writeRange_length {α : Type} (l : List α) (s : Nat) (vals : List α)
    (h : s + vals.length ≤ l.length) :
    (writeRange l s vals).length = l.length := by
  unfold writeRange
  simp only [List.length_append, List.length_take, List.length_drop]
  omega

/-- Writing a slice into a range-indexed map produces a range-indexed map
whose function switches to the written values on the slice. -/
lemma getElem?_range_map {α : Type} (F i : Nat) (g : Nat → α) (hi : i < F) :
    ((List.range F).map g)[i]? = some (g i) := by
  rw [List.getElem?_map, List.getElem?_range hi]
  rfl

lemma writeRange_map_range {α : Type} (F s : Nat) (f : Nat → α) (vals : List α) (d : α)
    (h : s + vals.length ≤ F) :
    writeRange ((List.range F).map f) s vals =
      (List.range F).map (fun o =>
        if decide (s ≤ o) && decide (o < s + vals.length) then vals.getD (o - s) d else f o) := by
  apply List.ext_getElem?
  intro i
  have hlen : ((List.range F).map f).length = F := by simp
  rw [writeRange_getElem? _ _ _ _ (by rw [hlen]; exact h)]
  by_cases hi : i < F
  · rw [getElem?_range_map _ _ _ hi, getElem?_range_map _ _ _ hi]
    by_cases hin : s ≤ i ∧ i < s + vals.length
    · rw [if_pos hin]
      have hc : (decide (s ≤ i) && decide (i < s + vals.length)) = true := by
        simp [hin.1, hin.2]
      simp only [hc, if_true]
      have hv : i - s < vals.length := by omega
      rw [List.getD_eq_getElem?_getD]
      cases hx : vals[i - s]? with
      | none =>
        exfalso
        rw [List.getElem?_eq_none_iff] at hx
        omega
      | some v => rfl
    · rw [if_neg hin]
      have hc : (decide (s ≤ i) && decide (i < s + vals.length)) = false := by
        rcases Decidable.not_and_iff_or_not.mp hin with hc | hc <;> simp [hc]
      simp only [hc]
      simp
  · have h1 : ((List.range F).map f)[i]? = none := by
      rw [List.getElem?_eq_none_iff]
      simp
      omega
    have h2 : ((List.range F).map (fun o =>
        if decide (s ≤ o) && decide (o < s + vals.length) then vals.getD (o - s) d
        else f o))[i]? = none := by
      rw [List.getElem?_eq_none_iff]
      simp
      omega
    rw [if_neg (by omega), h1, h2]

lemma place_loop_zero_rem (F : Nat) (now : ℚ) (pl : List Nat) (fuel : Nat) (m : FrameMap)
    (offset idx : Nat) (acc : Option (Nat × List Nat)) :
    place_loop F now fuel m offset idx pl 0 acc = (m, acc) := by
  cases fuel with
  | zero => rfl
  | succ g => rfl

lemma place_empty (F : Nat) (now : ℚ) (m : FrameMap) (bc : Nat) :
    place_data_packet F now m bc [] = (m, none) := rfl

/-- The effect of one loop iteration whose chunk is the whole remainder:
look up or create the buffer of frame `fid`, write `vals` at `pos`, and
either complete-and-remove the frame or store the updated buffer. -/
def place_step (F : Nat) (now : ℚ) (m : FrameMap) (fid pos : Nat) (vals : List Nat) :
    FrameMap × Option (Nat × List Nat) :=
  let buf0 := (lookupFB m fid).getD (newFrameBuf F now)
  let buf : FrameBuf := ⟨writeRange buf0.data pos vals,
                         writeRange buf0.filled pos (List.replicate vals.length true),
                         buf0.first_seen⟩
  let m1 := if (lookupFB m fid).isSome then updateFB m fid buf else m ++ [(fid, buf)]
  if buf.filled.all (fun b => b) then (eraseFB m1 fid, some (fid, buf.data))
  else (m1, none)

/-- A packet whose sample range stays inside one frame is placed in a
single loop iteration. -/
lemma place_single (F : Nat) (now : ℚ) (m : FrameMap) (bc : Nat) (pl : List Nat)
    (hlen : 0 < pl.length) (hfit : bc / 2 % F + pl.length ≤ F) :
    place_data_packet F now m bc pl =
      place_step F now m (bc / 2 / F) (bc / 2 % F) pl := by
  obtain ⟨k, hk⟩ : ∃ k, pl.length = k + 1 := ⟨pl.length - 1, by omega⟩
  have hchunk : min (k + 1) (F - bc / 2 % F) = k + 1 := by omega
  have htake : pl.take (k + 1) = pl := by
    rw [← hk]
    exact List.take_length pl
  unfold place_data_packet place_step
  rw [hk]
  simp only [place_loop, if_pos (Nat.succ_pos k), hchunk,
    if_neg (Nat.succ_ne_zero k), List.drop_zero, htake, Nat.sub_self]
  rw [place_loop_zero_rem, place_loop_zero_rem]

lemma all_map_range (F : Nat) (cov : Nat → Bool) :
    (((List.range F).map cov).all (fun b => b) = true) ↔ ∀ o, o < F → cov o = true := by
  rw [List.all_eq_true]
  constructor
  · intro h o ho
    exact h (cov o) (List.mem_map.mpr ⟨o, List.mem_range.mpr ho, rfl⟩)
  · intro h b hb
    obtain ⟨o, ho, rfl⟩ := List.mem_map.mp hb
    exact h o (List.mem_range.mp ho)

lemma bufOf_false (F : Nat) (g : Nat → Nat) (now : ℚ) :
    bufOf F (fun _ => false) g now = newFrameBuf F now := by
  unfold bufOf newFrameBuf
  rw [show (fun o => if (false : Bool) then g o else (0 : Nat)) = fun _ => (0 : Nat) from rfl]
  rw [List.map_const', List.map_const', List.length_range]

lemma getD_replicate_self {α : Type} (n i : Nat) (a : α) :
    (List.replicate n a).getD i a = a := by
  rw [List.getD_eq_getElem?_getD, List.getElem?_replicate]
  by_cases h : i < n <;> simp [h]

lemma writeRange_data (F s : Nat) (dataf : Nat → Nat) (vals : List Nat)
    (h : s + vals.length ≤ F) :
    writeRange ((List.range F).map dataf) s vals =
      (List.range F).map (fun o =>
        if decide (s ≤ o) && decide (o < s + vals.length) then vals.getD (o - s) 0
        else dataf o) :=
  writeRange_map_range F s dataf vals 0 h

lemma writeRange_filled (F s n : Nat) (cov : Nat → Bool) (h : s + n ≤ F) :
    writeRange ((List.range F).map cov) s (List.replicate n true) =
      (List.range F).map (fun o =>
        if decide (s ≤ o) && decide (o < s + n) then true else cov o) := by
  rw [writeRange_map_range F s cov (List.replicate n true) true
    (by rw [List.length_replicate]; exact h)]
  apply List.map_congr_left
  intro o ho
  simp only [List.length_replicate]
  cases hc : (decide (s ≤ o) && decide (o < s + n)) with
  | false => simp
  | true => simp [getD_replicate_self]

lemma feed_all_empty (F : Nat) :
    ∀ (qs : List (ℚ × Nat × List Nat)) (m : FrameMap), (∀ q ∈ qs, q.2.2.length = 0) →
      feed_packets F m qs = (m, []) := by
  intro qs
  induction qs with
  | nil => intro m h; rfl
  | cons q rest ih =>
    intro m h
    obtain ⟨t, bc, pl⟩ := q
    have hq : pl = [] :=
      List.eq_nil_of_length_eq_zero (h (t, bc, pl) (List.mem_cons_self _ _))
    subst hq
    simp only [feed_packets, place_empty]
    rw [ih m (fun q hq => h q (List.mem_cons_of_mem _ hq))]
    rfl

/-- Placing a packet that lies inside frame 0 onto the map holding the
partially-filled frame-0 buffer: the slice is written, and the frame is
either completed and removed or stored back. -/
lemma place_on_bufOf (F : Nat) (cov : Nat → Bool) (g : Nat → Nat) (t tp : ℚ)
    (bc : Nat) (pl : List Nat) (hple : 0 < pl.length) (hfitp : bc / 2 + pl.length ≤ F) :
    place_data_packet F tp [(0, bufOf F cov g t)] bc pl =
      if ((List.range F).map (fun o =>
            if decide (bc / 2 ≤ o) && decide (o < bc / 2 + pl.length) then true
            else cov o)).all (fun b => b) then
        ([], some (0, (List.range F).map (fun o =>
          if decide (bc / 2 ≤ o) && decide (o < bc / 2 + pl.length) then pl.getD (o - bc / 2) 0
          else if cov o then g o else 0)))
      else
        ([(0, ⟨(List.range F).map (fun o =>
            if decide (bc / 2 ≤ o) && decide (o < bc / 2 + pl.length) then pl.getD (o - bc / 2) 0
            else if cov o then g o else 0),
          (List.range F).map (fun o =>
            if decide (bc / 2 ≤ o) && decide (o < bc / 2 + pl.length) then true else cov o),
          t⟩)], none) := by
  have hsF : bc / 2 < F := by omega
  have hdiv : bc / 2 / F = 0 := Nat.div_eq_of_lt hsF
  have hmod : bc / 2 % F = bc / 2 := Nat.mod_eq_of_lt hsF
  rw [place_single F tp _ bc pl hple (by rw [hmod]; omega), hdiv, hmod]
  have hbuf0 : (lookupFB [(0, bufOf F cov g t)] 0).getD (newFrameBuf F tp) =
      bufOf F cov g t := rfl
  have hsome : (lookupFB [(0, bufOf F cov g t)] 0).isSome = true := rfl
  simp only [place_step, hbuf0, if_pos hsome]
  have hdata0 : (bufOf F cov g t).data =
      (List.range F).map (fun o => if cov o then g o else 0) := rfl
  have hfill0 : (bufOf F cov g t).filled = (List.range F).map cov := rfl
  have hfs0 : (bufOf F cov g t).first_seen = t := rfl
  rw [hdata0, hfill0, hfs0]
  rw [writeRange_data F (bc / 2) _ pl (by omega),
    writeRange_filled F (bc / 2) pl.length cov (by omega)]
  have hupd : ∀ b : FrameBuf, updateFB [(0, bufOf F cov g t)] 0 b = [(0, b)] :=
    fun b => rfl
  by_cases hall : ((List.range F).map (fun o =>
      if decide (bc / 2 ≤ o) && decide (o < bc / 2 + pl.length) then true
      else cov o)).all (fun b => b) = true
  · rw [if_pos hall, if_pos hall]
    rw [hupd]
    rfl
  · rw [if_neg hall, if_neg hall]
    rw [hupd]

/-- Feeding a packet sequence that covers, exactly once, exactly the
offsets of frame 0 that the current buffer lacks completes the frame at
the final contributing packet, with the buffer holding each packet's
samples at their offsets. -/
lemma feed_aux (F : Nat) (hF : 0 < F) :
    ∀ (ps : List (ℚ × Nat × List Nat)) (cov : Nat → Bool) (g : Nat → Nat) (t : ℚ),
      (∀ p ∈ ps, p.2.1 / 2 + p.2.2.length ≤ F) →
      (∀ o, o < F → (ps.countP (fun p => pkt_covers p o)) = if cov o then 0 else 1) →
      (∃ o, o < F ∧ cov o = false) →
      feed_packets F [(0, bufOf F cov g t)] ps =
        ([], [(0, (List.range F).map
          (fun o => if cov o then g o else sampleAt ps o))]) := by
  intro ps
  induction ps with
  | nil =>
    rintro cov g t hfit hcount ⟨o, ho, hcovo⟩
    have h0 := hcount o ho
    rw [List.countP_nil, hcovo] at h0
    simp at h0
  | cons p rest ih =>
    rintro cov g t hfit hcount hnot
    obtain ⟨tp, bc, pl⟩ := p
    by_cases hpl : pl.length = 0
    · have hplnil : pl = [] := List.eq_nil_of_length_eq_zero hpl
      subst hplnil
      have hcovfalse : ∀ o, pkt_covers (tp, bc, ([] : List Nat)) o = false := by
        intro o
        simp only [pkt_covers, List.length_nil, Nat.add_zero, Bool.and_eq_false_iff]
        by_cases h1 : bc / 2 ≤ o
        · right
          simpa using by omega
        · left
          simpa using h1
      have hcount' : ∀ o, o < F →
          rest.countP (fun q => pkt_covers q o) = if cov o then 0 else 1 := by
        intro o ho
        have h0 := hcount o ho
        rw [List.countP_cons, hcovfalse o] at h0
        simpa using h0
      have hfit' : ∀ q ∈ rest, q.2.1 / 2 + q.2.2.length ≤ F :=
        fun q hq => hfit q (List.mem_cons_of_mem _ hq)
      have hD : (List.range F).map
            (fun o => if cov o then g o else sampleAt rest o) =
          (List.range F).map
            (fun o => if cov o then g o else
              sampleAt ((tp, bc, ([] : List Nat)) :: rest) o) := by
        apply List.map_congr_left
        intro o ho
        have hfind : ((tp, bc, ([] : List Nat)) :: rest).find? (fun p => pkt_covers p o) =
            rest.find? (fun p => pkt_covers p o) :=
          List.find?_cons_of_neg _ (by simp [hcovfalse o])
        cases hc : cov o
        · simp [sampleAt, hfind]
        · simp
      simp only [feed_packets, place_empty]
      rw [ih cov g t hfit' hcount' hnot]
      simp only [List.nil_append]
      rw [← hD]
    · have hple : 0 < pl.length := by omega
      have hfitp : bc / 2 + pl.length ≤ F := hfit (tp, bc, pl) (List.mem_cons_self _ _)
      have hdisj : ∀ o, o < F → pkt_covers (tp, bc, pl) o = true →
          cov o = false ∧ rest.countP (fun q => pkt_covers q o) = 0 := by
        intro o ho hc
        have h0 := hcount o ho
        rw [List.countP_cons, hc] at h0
        cases hcov : cov o
        · rw [hcov] at h0
          rw [if_pos rfl, if_neg (show ¬(false = true) by simp)] at h0
          exact ⟨rfl, by omega⟩
        · rw [hcov] at h0
          rw [if_pos rfl, if_pos rfl] at h0
          omega
      have hpk : ∀ o, pkt_covers (tp, bc, pl) o =
          (decide (bc / 2 ≤ o) && decide (o < bc / 2 + pl.length)) := fun o => rfl
      simp only [feed_packets]
      rw [place_on_bufOf F cov g t tp bc pl hple hfitp]
      by_cases hall : (((List.range F).map (fun o =>
          if decide (bc / 2 ≤ o) && decide (o < bc / 2 + pl.length) then true
          else cov o)).all (fun b => b)) = true
      · rw [if_pos hall]
        have hallo := (all_map_range F _).mp hall
        have hrest_empty : ∀ q ∈ rest, q.2.2.length = 0 := by
          intro q hq
          by_contra hqne
          have hqlen : 0 < q.2.2.length := by omega
          have hqfit := hfit q (List.mem_cons_of_mem _ hq)
          have hoF : q.2.1 / 2 < F := by omega
          have hqcov : pkt_covers q (q.2.1 / 2) = true := by
            simp only [pkt_covers, Bool.and_eq_true, decide_eq_true_eq]
            omega
          have hrest_pos : 0 < rest.countP (fun r => pkt_covers r (q.2.1 / 2)) :=
            List.countP_pos_iff.mpr ⟨q, hq, hqcov⟩
          by_cases hpc : pkt_covers (tp, bc, pl) (q.2.1 / 2) = true
          · obtain ⟨hcovf, hrest0⟩ := hdisj (q.2.1 / 2) hoF hpc
            rw [hrest0] at hrest_pos
            exact absurd hrest_pos (by omega)
          · have hpc' : pkt_covers (tp, bc, pl) (q.2.1 / 2) = false := by
              cases hb : pkt_covers (tp, bc, pl) (q.2.1 / 2)
              · rfl
              · exact absurd hb hpc
            have hco : cov (q.2.1 / 2) = true := by
              have h1 := hallo (q.2.1 / 2) hoF
              rw [← hpk, hpc'] at h1
              rw [if_neg (show ¬(false = true) by simp)] at h1
              exact h1
            have h0 := hcount (q.2.1 / 2) hoF
            rw [List.countP_cons, hpc', hco] at h0
            rw [if_neg (show ¬(false = true) by simp), if_pos rfl] at h0
            omega
        rw [feed_all_empty F rest _ hrest_empty]
        have hD : (List.range F).map (fun o =>
              if decide (bc / 2 ≤ o) && decide (o < bc / 2 + pl.length)
              then pl.getD (o - bc / 2) 0
              else if cov o then g o else 0) =
            (List.range F).map (fun o =>
              if cov o then g o else sampleAt ((tp, bc, pl) :: rest) o) := by
          apply List.map_congr_left
          intro o ho
          have hoF : o < F := List.mem_range.mp ho
          by_cases hpc : (decide (bc / 2 ≤ o) && decide (o < bc / 2 + pl.length)) = true
          · obtain ⟨hcovf, -⟩ := hdisj o hoF (by rw [hpk]; exact hpc)
            have hfind : ((tp, bc, pl) :: rest).find? (fun p => pkt_covers p o) =
                some (tp, bc, pl) :=
              List.find?_cons_of_pos _ (by rw [hpk]; exact hpc)
            simp [hpc, hcovf, sampleAt, hfind]
          · have hpc' : (decide (bc / 2 ≤ o) && decide (o < bc / 2 + pl.length)) = false := by
              cases hb : (decide (bc / 2 ≤ o) && decide (o < bc / 2 + pl.length))
              · rfl
              · exact absurd hb hpc
            cases hcov : cov o
            · exfalso
              have h1 := hallo o hoF
              rw [hpc', hcov] at h1
              simp at h1
            · simp [hpc', hcov]
        rw [hD]
        rfl
      · rw [if_neg hall]
        have hnot' : ∃ o, o < F ∧ (fun o =>
            if decide (bc / 2 ≤ o) && decide (o < bc / 2 + pl.length) then true
            else cov o) o = false := by
          by_contra hcon
          push_neg at hcon
          apply hall
          rw [all_map_range]
          intro o ho
          have hne := hcon o ho
          cases hb : (if decide (bc / 2 ≤ o) && decide (o < bc / 2 + pl.length) then true
              else cov o)
          · exact absurd hb hne
          · rfl
        have hcount' : ∀ o, o < F →
            rest.countP (fun q => pkt_covers q o) =
              if (fun o => if decide (bc / 2 ≤ o) && decide (o < bc / 2 + pl.length)
                  then true else cov o) o then 0 else 1 := by
          intro o ho
          have h0 := hcount o ho
          rw [List.countP_cons] at h0
          by_cases hpc : (decide (bc / 2 ≤ o) && decide (o < bc / 2 + pl.length)) = true
          · obtain ⟨hcovf, hrest0⟩ := hdisj o ho (by rw [hpk]; exact hpc)
            simp [hpc, hrest0]
          · have hpc' : (decide (bc / 2 ≤ o) && decide (o < bc / 2 + pl.length)) = false := by
              cases hb : (decide (bc / 2 ≤ o) && decide (o < bc / 2 + pl.length))
              · rfl
              · exact absurd hb hpc
            have hpcov : pkt_covers (tp, bc, pl) o = false := by rw [hpk]; exact hpc'
            rw [hpcov] at h0
            rw [if_neg (show ¬(false = true) by simp)] at h0
            simp only [hpc']
            rw [if_neg (show ¬(false = true) by simp)]
            omega
        have hfit' : ∀ q ∈ rest, q.2.1 / 2 + q.2.2.length ≤ F :=
          fun q hq => hfit q (List.mem_cons_of_mem _ hq)
        have hbufeq : (⟨(List.range F).map (fun o =>
              if decide (bc / 2 ≤ o) && decide (o < bc / 2 + pl.length)
              then pl.getD (o - bc / 2) 0
              else if cov o then g o else 0),
            (List.range F).map (fun o =>
              if decide (bc / 2 ≤ o) && decide (o < bc / 2 + pl.length) then true
              else cov o), t⟩ : FrameBuf) =
            bufOf F (fun o =>
              if decide (bc / 2 ≤ o) && decide (o < bc / 2 + pl.length) then true
              else cov o)
              (fun o =>
                if decide (bc / 2 ≤ o) && decide (o < bc / 2 + pl.length)
                then pl.getD (o - bc / 2) 0 else g o) t := by
          unfold bufOf
          congr 1
          apply List.map_congr_left
          intro o ho
          cases hpc : (decide (bc / 2 ≤ o) && decide (o < bc / 2 + pl.length)) <;>
            simp [hpc]
        rw [hbufeq]
        rw [ih _ _ t hfit' hcount' hnot']
        simp only [List.nil_append]
        have hD2 : (List.range F).map (fun o =>
              if (if decide (bc / 2 ≤ o) && decide (o < bc / 2 + pl.length) then true
                  else cov o) then
                (if decide (bc / 2 ≤ o) && decide (o < bc / 2 + pl.length)
                 then pl.getD (o - bc / 2) 0 else g o)
              else sampleAt rest o) =
            (List.range F).map (fun o =>
              if cov o then g o else sampleAt ((tp, bc, pl) :: rest) o) := by
          apply List.map_congr_left
          intro o ho
          have hoF : o < F := List.mem_range.mp ho
          by_cases hpc : (decide (bc / 2 ≤ o) && decide (o < bc / 2 + pl.length)) = true
          · obtain ⟨hcovf, -⟩ := hdisj o hoF (by rw [hpk]; exact hpc)
            have hfind : ((tp, bc, pl) :: rest).find? (fun p => pkt_covers p o) =
                some (tp, bc, pl) :=
              List.find?_cons_of_pos _ (by rw [hpk]; exact hpc)
            simp [hpc, hcovf, sampleAt, hfind]
          · have hpc' : (decide (bc / 2 ≤ o) && decide (o < bc / 2 + pl.length)) = false := by
              cases hb : (decide (bc / 2 ≤ o) && decide (o < bc / 2 + pl.length))
              · rfl
              · exact absurd hb hpc
            cases hcov : cov o
            · have hfind : ((tp, bc, pl) :: rest).find? (fun p => pkt_covers p o) =
                  rest.find? (fun p => pkt_covers p o) :=
                List.find?_cons_of_neg _ (by rw [hpk]; simp [hpc'])
              simp [hpc', hcov, sampleAt, hfind]
            · simp [hpc', hcov]
        rw [hD2]

/-- Placing a packet that lies inside frame 0 onto the empty pending map:
a fresh buffer is created, written, and either completed or stored. -/
lemma place_on_empty (F : Nat) (tp : ℚ) (bc : Nat) (pl : List Nat)
    (hple : 0 < pl.length) (hfitp : bc / 2 + pl.length ≤ F) :
    place_data_packet F tp [] bc pl =
      if ((List.range F).map (fun o =>
            if decide (bc / 2 ≤ o) && decide (o < bc / 2 + pl.length) then true
            else false)).all (fun b => b) then
        ([], some (0, (List.range F).map (fun o =>
          if decide (bc / 2 ≤ o) && decide (o < bc / 2 + pl.length)
          then pl.getD (o - bc / 2) 0 else 0)))
      else
        ([(0, ⟨(List.range F).map (fun o =>
            if decide (bc / 2 ≤ o) && decide (o < bc / 2 + pl.length)
            then pl.getD (o - bc / 2) 0 else 0),
          (List.range F).map (fun o =>
            if decide (bc / 2 ≤ o) && decide (o < bc / 2 + pl.length) then true
            else false), tp⟩)], none) := by
  have hsF : bc / 2 < F := by omega
  have hdiv : bc / 2 / F = 0 := Nat.div_eq_of_lt hsF
  have hmod : bc / 2 % F = bc / 2 := Nat.mod_eq_of_lt hsF
  rw [place_single F tp _ bc pl hple (by rw [hmod]; omega), hdiv, hmod]
  have hbuf0 : (lookupFB [] 0).getD (newFrameBuf F tp) = newFrameBuf F tp := rfl
  have hnone : (lookupFB ([] : FrameMap) 0).isSome = false := rfl
  simp only [place_step, hbuf0, hnone, Bool.false_eq_true, if_false]
  have hnd : (newFrameBuf F tp).data = (List.range F).map (fun _ => (0 : Nat)) := by
    show List.replicate F 0 = _
    rw [List.map_const', List.length_range]
  have hnf : (newFrameBuf F tp).filled = (List.range F).map (fun _ => false) := by
    show List.replicate F false = _
    rw [List.map_const', List.length_range]
  have hnt : (newFrameBuf F tp).first_seen = tp := rfl
  rw [hnd, hnf, hnt]
  rw [writeRange_data F (bc / 2) _ pl (by omega),
    writeRange_filled F (bc / 2) pl.length _ (by omega)]
  have hera : ∀ b : FrameBuf, eraseFB [(0, b)] 0 = [] := fun b => rfl
  by_cases hall : (((List.range F).map (fun o =>
      if decide (bc / 2 ≤ o) && decide (o < bc / 2 + pl.length) then true
      else false)).all (fun b => b)) = true
  · rw [if_pos hall, if_pos hall, List.nil_append, hera]
  · rw [if_neg hall, if_neg hall, List.nil_append]

/-- C2 core: packets covering the offsets of frame 0 exactly once, fed in
any order and chunking to the empty pending map, produce exactly one
completed frame: frame 0, equal to the concatenation of the payloads in
offset order. -/
lemma feed_empty_start (F : Nat) (hF : 0 < F) :
    ∀ ps : List (ℚ × Nat × List Nat),
      (∀ p ∈ ps, p.2.1 / 2 + p.2.2.length ≤ F) →
      (∀ o, o < F → ps.countP (fun p => pkt_covers p o) = 1) →
      feed_packets F [] ps = ([], [(0, (List.range F).map (sampleAt ps))]) := by
  intro ps
  induction ps with
  | nil =>
    intro hfit hcount
    have h0 := hcount 0 hF
    simp at h0
  | cons p rest ih =>
    intro hfit hcount
    obtain ⟨tp, bc, pl⟩ := p
    by_cases hpl : pl.length = 0
    · have hplnil : pl = [] := List.eq_nil_of_length_eq_zero hpl
      subst hplnil
      have hcovfalse : ∀ o, pkt_covers (tp, bc, ([] : List Nat)) o = false := by
        intro o
        simp only [pkt_covers, List.length_nil, Nat.add_zero, Bool.and_eq_false_iff]
        by_cases h1 : bc / 2 ≤ o
        · right
          simpa using by omega
        · left
          simpa using h1
      have hcount' : ∀ o, o < F → rest.countP (fun q => pkt_covers q o) = 1 := by
        intro o ho
        have h0 := hcount o ho
        rw [List.countP_cons, hcovfalse o] at h0
        simpa using h0
      have hfit' : ∀ q ∈ rest, q.2.1 / 2 + q.2.2.length ≤ F :=
        fun q hq => hfit q (List.mem_cons_of_mem _ hq)
      have hD : (List.range F).map (sampleAt rest) =
          (List.range F).map (sampleAt ((tp, bc, ([] : List Nat)) :: rest)) := by
        apply List.map_congr_left
        intro o ho
        have hfind : ((tp, bc, ([] : List Nat)) :: rest).find? (fun p => pkt_covers p o) =
            rest.find? (fun p => pkt_covers p o) :=
          List.find?_cons_of_neg _ (by simp [hcovfalse o])
        simp [sampleAt, hfind]
      simp only [feed_packets, place_empty]
      rw [ih hfit' hcount']
      simp only [List.nil_append]
      rw [← hD]
    · have hple : 0 < pl.length := by omega
      have hfitp : bc / 2 + pl.length ≤ F := hfit (tp, bc, pl) (List.mem_cons_self _ _)
      have hdisj : ∀ o, o < F → pkt_covers (tp, bc, pl) o = true →
          rest.countP (fun q => pkt_covers q o) = 0 := by
        intro o ho hc
        have h0 := hcount o ho
        rw [List.countP_cons, hc] at h0
        rw [if_pos rfl] at h0
        omega
      have hpk : ∀ o, pkt_covers (tp, bc, pl) o =
          (decide (bc / 2 ≤ o) && decide (o < bc / 2 + pl.length)) := fun o => rfl
      simp only [feed_packets]
      rw [place_on_empty F tp bc pl hple hfitp]
      by_cases hall : (((List.range F).map (fun o =>
          if decide (bc / 2 ≤ o) && decide (o < bc / 2 + pl.length) then true
          else false)).all (fun b => b)) = true
      · rw [if_pos hall]
        have hallo := (all_map_range F _).mp hall
        have hrest_empty : ∀ q ∈ rest, q.2.2.length = 0 := by
          intro q hq
          by_contra hqne
          have hqlen : 0 < q.2.2.length := by omega
          have hqfit := hfit q (List.mem_cons_of_mem _ hq)
          have hoF : q.2.1 / 2 < F := by omega
          have hqcov : pkt_covers q (q.2.1 / 2) = true := by
            simp only [pkt_covers, Bool.and_eq_true, decide_eq_true_eq]
            omega
          have hrest_pos : 0 < rest.countP (fun r => pkt_covers r (q.2.1 / 2)) :=
            List.countP_pos_iff.mpr ⟨q, hq, hqcov⟩
          by_cases hpc : pkt_covers (tp, bc, pl) (q.2.1 / 2) = true
          · have hrest0 := hdisj (q.2.1 / 2) hoF hpc
            rw [hrest0] at hrest_pos
            exact absurd hrest_pos (by omega)
          · have hpc' : pkt_covers (tp, bc, pl) (q.2.1 / 2) = false := by
              cases hb : pkt_covers (tp, bc, pl) (q.2.1 / 2)
              · rfl
              · exact absurd hb hpc
            have h1 := hallo (q.2.1 / 2) hoF
            rw [← hpk, hpc'] at h1
            rw [if_neg (show ¬(false = true) by simp)] at h1
            simp at h1
        rw [feed_all_empty F rest _ hrest_empty]
        have hD : (List.range F).map (fun o =>
              if decide (bc / 2 ≤ o) && decide (o < bc / 2 + pl.length)
              then pl.getD (o - bc / 2) 0 else 0) =
            (List.range F).map (sampleAt ((tp, bc, pl) :: rest)) := by
          apply List.map_congr_left
          intro o ho
          have hoF : o < F := List.mem_range.mp ho
          by_cases hpc : (decide (bc / 2 ≤ o) && decide (o < bc / 2 + pl.length)) = true
          · have hfind : ((tp, bc, pl) :: rest).find? (fun p => pkt_covers p o) =
                some (tp, bc, pl) :=
              List.find?_cons_of_pos _ (by rw [hpk]; exact hpc)
            simp [hpc, sampleAt, hfind]
          · have hpc' : (decide (bc / 2 ≤ o) && decide (o < bc / 2 + pl.length)) = false := by
              cases hb : (decide (bc / 2 ≤ o) && decide (o < bc / 2 + pl.length))
              · rfl
              · exact absurd hb hpc
            exfalso
            have h1 := hallo o hoF
            rw [hpc'] at h1
            simp at h1
        rw [hD]
        rfl
      · rw [if_neg hall]
        have hbufeq : (⟨(List.range F).map (fun o =>
              if decide (bc / 2 ≤ o) && decide (o < bc / 2 + pl.length)
              then pl.getD (o - bc / 2) 0 else 0),
            (List.range F).map (fun o =>
              if decide (bc / 2 ≤ o) && decide (o < bc / 2 + pl.length) then true
              else false), tp⟩ : FrameBuf) =
            bufOf F (fun o =>
              if decide (bc / 2 ≤ o) && decide (o < bc / 2 + pl.length) then true
              else false)
              (fun o => pl.getD (o - bc / 2) 0) tp := by
          unfold bufOf
          congr 1
          apply List.map_congr_left
          intro o ho
          cases hpc : (decide (bc / 2 ≤ o) && decide (o < bc / 2 + pl.length)) <;>
            simp [hpc]
        have hnot' : ∃ o, o < F ∧ (fun o =>
            if decide (bc / 2 ≤ o) && decide (o < bc / 2 + pl.length) then true
            else false) o = false := by
          by_contra hcon
          push_neg at hcon
          apply hall
          rw [all_map_range]
          intro o ho
          have hne := hcon o ho
          cases hb : (if decide (bc / 2 ≤ o) && decide (o < bc / 2 + pl.length) then true
              else false)
          · exact absurd hb hne
          · rfl
        have hcount' : ∀ o, o < F →
            rest.countP (fun q => pkt_covers q o) =
              if (fun o => if decide (bc / 2 ≤ o) && decide (o < bc / 2 + pl.length)
                  then true else false) o then 0 else 1 := by
          intro o ho
          have h0 := hcount o ho
          rw [List.countP_cons] at h0
          by_cases hpc : (decide (bc / 2 ≤ o) && decide (o < bc / 2 + pl.length)) = true
          · have hrest0 := hdisj o ho (by rw [hpk]; exact hpc)
            simp [hpc, hrest0]
          · have hpc' : (decide (bc / 2 ≤ o) && decide (o < bc / 2 + pl.length)) = false := by
              cases hb : (decide (bc / 2 ≤ o) && decide (o < bc / 2 + pl.length))
              · rfl
              · exact absurd hb hpc
            have hpcov : pkt_covers (tp, bc, pl) o = false := by rw [hpk]; exact hpc'
            rw [hpcov] at h0
            rw [if_neg (show ¬(false = true) by simp)] at h0
            simp [hpc']
            omega
        have hfit' : ∀ q ∈ rest, q.2.1 / 2 + q.2.2.length ≤ F :=
          fun q hq => hfit q (List.mem_cons_of_mem _ hq)
        rw [hbufeq]
        rw [feed_aux F hF rest _ _ tp hfit' hcount' hnot']
        simp only [List.nil_append]
        have hD2 : (List.range F).map (fun o =>
              if (if decide (bc / 2 ≤ o) && decide (o < bc / 2 + pl.length) then true
                  else false) then pl.getD (o - bc / 2) 0
              else sampleAt rest o) =
            (List.range F).map (sampleAt ((tp, bc, pl) :: rest)) := by
          apply List.map_congr_left
          intro o ho
          by_cases hpc : (decide (bc / 2 ≤ o) && decide (o < bc / 2 + pl.length)) = true
          · have hfind : ((tp, bc, pl) :: rest).find? (fun p => pkt_covers p o) =
                some (tp, bc, pl) :=
              List.find?_cons_of_pos _ (by rw [hpk]; exact hpc)
            simp [hpc, sampleAt, hfind]
          · have hpc' : (decide (bc / 2 ≤ o) && decide (o < bc / 2 + pl.length)) = false := by
              cases hb : (decide (bc / 2 ≤ o) && decide (o < bc / 2 + pl.length))
              · rfl
              · exact absurd hb hpc
            have hfind : ((tp, bc, pl) :: rest).find? (fun p => pkt_covers p o) =
                rest.find? (fun p => pkt_covers p o) :=
              List.find?_cons_of_neg _ (by rw [hpk]; simp [hpc'])
            simp [hpc', sampleAt, hfind]
        rw [hD2]

lemma place_loop_step (F : Nat) (now : ℚ) (fuel : Nat) (m : FrameMap) (offset idx : Nat)
    (pl : List Nat) (rem : Nat) (acc : Option (Nat × List Nat))
    (hrem : 0 < rem) (hchunk : ¬ min rem (F - offset % F) = 0) :
    place_loop F now (fuel + 1) m offset idx pl rem acc =
      (let chunk := min rem (F - offset % F)
       let buf0 := (lookupFB m (offset / F)).getD (newFrameBuf F now)
       let buf : FrameBuf := ⟨writeRange buf0.data (offset % F) ((pl.drop idx).take chunk),
                              writeRange buf0.filled (offset % F) (List.replicate chunk true),
                              buf0.first_seen⟩
       let m1 := if (lookupFB m (offset / F)).isSome then updateFB m (offset / F) buf
                 else m ++ [(offset / F, buf)]
       if buf.filled.all (fun b => b) then
         place_loop F now fuel (eraseFB m1 (offset / F)) (offset + chunk) (idx + chunk) pl
           (rem - chunk) (some (offset / F, buf.data))
       else place_loop F now fuel m1 (offset + chunk) (idx + chunk) pl (rem - chunk) acc) := by
  simp only [place_loop, if_pos hrem, if_neg hchunk]

lemma getD_map_range {α : Type} (F i : Nat) (g : Nat → α) (d : α) (hi : i < F) :
    ((List.range F).map g).getD i d = g i := by
  rw [List.getD_eq_getElem?_getD, getElem?_range_map F i g hi]
  rfl

lemma getD_take_lt (l : List Nat) (n i : Nat) (hi : i < n) :
    (l.take n).getD i 0 = l.getD i 0 := by
  rw [List.getD_eq_getElem?_getD, List.getD_eq_getElem?_getD, List.getElem?_take,
    if_pos hi]

lemma getD_drop_add (l : List Nat) (n i : Nat) :
    (l.drop n).getD i 0 = l.getD (n + i) 0 := by
  rw [List.getD_eq_getElem?_getD, List.getD_eq_getElem?_getD, List.getElem?_drop]

lemma next_offset_mod (F offset rem : Nat) (hc : ¬ min rem (F - offset % F) = 0)
    (hcont : 0 < rem - min rem (F - offset % F)) :
    (offset + min rem (F - offset % F)) % F = 0 := by
  have hFpos : 0 < F := by omega
  have hchunk : min rem (F - offset % F) = F - offset % F := by omega
  have hmod : offset % F < F := Nat.mod_lt _ hFpos
  have hdm : F * (offset / F) + offset % F = offset := Nat.div_add_mod offset F
  have h1 : offset + (F - offset % F) = F * (offset / F + 1) := by
    calc offset + (F - offset % F)
        = F * (offset / F) + offset % F + (F - offset % F) := by rw [hdm]
    _ = F * (offset / F) + F := by omega
    _ = F * (offset / F + 1) := by ring
  rw [hchunk, h1, Nat.mul_comm, Nat.mul_mod_left]

lemma newFrameBuf_data (F : Nat) (now : ℚ) :
    (newFrameBuf F now).data = (List.range F).map (fun _ => (0 : Nat)) := by
  show List.replicate F 0 = _
  rw [List.map_const', List.length_range]

lemma newFrameBuf_filled (F : Nat) (now : ℚ) :
    (newFrameBuf F now).filled = (List.range F).map (fun _ => false) := by
  show List.replicate F false = _
  rw [List.map_const', List.length_range]

lemma newFrameBuf_fs (F : Nat) (now : ℚ) : (newFrameBuf F now).first_seen = now := rfl

lemma place_chunks_zero (F : Nat) : ∀ fuel offset, place_chunks F fuel offset 0 = [] := by
  intro fuel offset
  cases fuel with
  | zero => rfl
  | succ g => rfl

/-- C2 split property: a packet that starts mid-frame and crosses exactly
one frame boundary is split into two chunks whose sizes sum to the payload
length; every sample is written exactly once, at its offset position, into
the two partial frames. -/
lemma place_straddle (F : Nat) (hF : 0 < F) (now : ℚ) (bc : Nat) (pl : List Nat)
    (hpos : bc / 2 % F ≠ 0)
    (hspan : F - bc / 2 % F < pl.length)
    (hsecond : pl.length - (F - bc / 2 % F) < F) :
    (place_chunks F pl.length (bc / 2) pl.length =
        [F - bc / 2 % F, pl.length - (F - bc / 2 % F)] ∧
      (F - bc / 2 % F) + (pl.length - (F - bc / 2 % F)) = pl.length) ∧
    ∃ buf1 buf2 : FrameBuf,
      place_data_packet F now [] bc pl =
        ([(bc / 2 / F, buf1), (bc / 2 / F + 1, buf2)], none) ∧
      buf1.first_seen = now ∧ buf2.first_seen = now ∧
      (∀ i, i < F - bc / 2 % F →
        buf1.data.getD (bc / 2 % F + i) 0 = pl.getD i 0) ∧
      (∀ i, F - bc / 2 % F ≤ i → i < pl.length →
        buf2.data.getD (i - (F - bc / 2 % F)) 0 = pl.getD i 0) ∧
      (∀ j, j < F → (buf1.filled.getD j false = true ↔ bc / 2 % F ≤ j)) ∧
      (∀ j, j < F → (buf2.filled.getD j false = true ↔
        j < pl.length - (F - bc / 2 % F))) := by
  have hposlt : bc / 2 % F < F := Nat.mod_lt _ hF
  obtain ⟨k, hk⟩ : ∃ k, pl.length = k + 1 := ⟨pl.length - 1, by omega⟩
  obtain ⟨j, hj⟩ : ∃ j, k = j + 1 := ⟨k - 1, by omega⟩
  have hmin1 : min (k + 1) (F - bc / 2 % F) = F - bc / 2 % F := by omega
  have hc : ¬ min (k + 1) (F - bc / 2 % F) = 0 := by omega
  have hcont : 0 < (k + 1) - min (k + 1) (F - bc / 2 % F) := by omega
  have hmod2 : (bc / 2 + (F - bc / 2 % F)) % F = 0 := by
    have h := next_offset_mod F (bc / 2) (k + 1) hc hcont
    rw [hmin1] at h
    exact h
  have hdiv2 : (bc / 2 + (F - bc / 2 % F)) / F = bc / 2 / F + 1 := by
    have h := next_offset_div F (bc / 2) (k + 1) hc hcont
    rw [hmin1] at h
    exact h
  constructor
  · constructor
    · rw [hk]
      simp only [place_chunks, if_pos (Nat.succ_pos k), hmin1,
        if_neg (show ¬(F - bc / 2 % F) = 0 by omega)]
      congr 1
      rw [hj]
      simp only [place_chunks, if_pos (show 0 < j + 1 + 1 - (F - bc / 2 % F) by omega),
        hmod2, Nat.sub_zero]
      rw [show min (j + 1 + 1 - (F - bc / 2 % F)) F = j + 1 + 1 - (F - bc / 2 % F) by omega]
      rw [if_neg (show ¬(j + 1 + 1 - (F - bc / 2 % F)) = 0 by omega)]
      rw [Nat.sub_self, place_chunks_zero]
    · omega
  · have hlen1 : (pl.take (F - bc / 2 % F)).length = F - bc / 2 % F := by
      rw [List.length_take]
      omega
    refine ⟨⟨(List.range F).map (fun o =>
        if decide (bc / 2 % F ≤ o) && decide (o < bc / 2 % F + (F - bc / 2 % F)) then
          (pl.take (F - bc / 2 % F)).getD (o - bc / 2 % F) 0
        else 0),
      (List.range F).map (fun o =>
        if decide (bc / 2 % F ≤ o) && decide (o < bc / 2 % F + (F - bc / 2 % F)) then true
        else false),
      now⟩,
      ⟨(List.range F).map (fun o =>
        if decide (0 ≤ o) && decide (o < pl.length - (F - bc / 2 % F)) then
          (pl.drop (F - bc / 2 % F)).getD o 0
        else 0),
      (List.range F).map (fun o =>
        if decide (0 ≤ o) && decide (o < pl.length - (F - bc / 2 % F)) then true
        else false),
      now⟩,
      ?_, rfl, rfl, ?_, ?_, ?_, ?_⟩
    · unfold place_data_packet
      rw [hk]
      rw [place_loop_step F now k [] (bc / 2) 0 pl (k + 1) none (Nat.succ_pos k) hc]
      have hlk1 : lookupFB ([] : FrameMap) (bc / 2 / F) = none := rfl
      simp only [hmin1, hlk1, Option.getD_none, Option.isSome_none, Bool.false_eq_true,
        if_false, List.drop_zero, newFrameBuf_data, newFrameBuf_filled, newFrameBuf_fs,
        List.nil_append]
      rw [writeRange_data F (bc / 2 % F) _ (pl.take (F - bc / 2 % F))
        (by rw [hlen1]; omega)]
      rw [writeRange_filled F (bc / 2 % F) (F - bc / 2 % F) _ (by omega)]
      simp only [hlen1]
      have hnotall1 : (((List.range F).map (fun o =>
          if decide (bc / 2 % F ≤ o) && decide (o < bc / 2 % F + (F - bc / 2 % F)) then true
          else false)).all (fun b => b)) = false := by
        cases hb : (((List.range F).map (fun o =>
            if decide (bc / 2 % F ≤ o) && decide (o < bc / 2 % F + (F - bc / 2 % F)) then true
            else false)).all (fun b => b))
        · rfl
        · exfalso
          have h0 := (all_map_range F _).mp hb 0 hF
          rw [if_neg (by
            simp only [Bool.and_eq_true, decide_eq_true_eq, not_and]
            omega)] at h0
          exact absurd h0 (by simp)
      rw [if_neg (by rw [hnotall1]; simp)]
      rw [hj]
      rw [place_loop_step F now j _ _ _ pl _ none (by omega)
        (by rw [hmod2]; omega)]
      simp only [hmod2, hdiv2, Nat.sub_zero, Nat.zero_add]
      have hlk2 : ∀ b : FrameBuf,
          lookupFB [(bc / 2 / F, b)] (bc / 2 / F + 1) = none := by
        intro b
        show (if bc / 2 / F = bc / 2 / F + 1 then some b
          else lookupFB [] (bc / 2 / F + 1)) = none
        rw [if_neg (by omega)]
        rfl
      have hmin2 : min (j + 1 + 1 - (F - bc / 2 % F)) F =
          j + 1 + 1 - (F - bc / 2 % F) := by omega
      simp only [hmin2, hlk2, Option.getD_none, Option.isSome_none, Bool.false_eq_true,
        if_false, newFrameBuf_data, newFrameBuf_filled, newFrameBuf_fs]
      have htake2 : (pl.drop (F - bc / 2 % F)).take (j + 1 + 1 - (F - bc / 2 % F)) =
          pl.drop (F - bc / 2 % F) :=
        List.take_of_length_le (by rw [List.length_drop]; omega)
      rw [htake2]
      rw [writeRange_data F 0 _ (pl.drop (F - bc / 2 % F))
        (by rw [List.length_drop]; omega)]
      rw [writeRange_filled F 0 (j + 1 + 1 - (F - bc / 2 % F)) _ (by omega)]
      simp only [List.length_drop, Nat.zero_add]
      have hnotall2 : (((List.range F).map (fun o =>
          if decide (0 ≤ o) && decide (o < j + 1 + 1 - (F - bc / 2 % F)) then true
          else false)).all (fun b => b)) = false := by
        cases hb : (((List.range F).map (fun o =>
            if decide (0 ≤ o) && decide (o < j + 1 + 1 - (F - bc / 2 % F)) then true
            else false)).all (fun b => b))
        · rfl
        · exfalso
          have h0 := (all_map_range F _).mp hb (j + 1 + 1 - (F - bc / 2 % F)) (by omega)
          rw [if_neg (by
            simp only [Bool.and_eq_true, decide_eq_true_eq, not_and]
            omega)] at h0
          exact absurd h0 (by simp)
      rw [if_neg (by rw [hnotall2]; simp)]
      rw [Nat.sub_self, place_loop_zero_rem]
      simp only [Nat.zero_add, Nat.sub_zero, List.nil_append, List.cons_append]
      rw [show j + 1 + 1 = pl.length from by omega]
    · intro i hi
      dsimp only
      rw [getD_map_range F (bc / 2 % F + i) _ 0 (by omega)]
      rw [if_pos (by
        simp only [Bool.and_eq_true, decide_eq_true_eq]
        omega)]
      rw [show bc / 2 % F + i - bc / 2 % F = i from by omega]
      exact getD_take_lt pl (F - bc / 2 % F) i hi
    · intro i hi1 hi2
      dsimp only
      rw [getD_map_range F (i - (F - bc / 2 % F)) _ 0 (by omega)]
      rw [if_pos (by
        simp only [Bool.and_eq_true, decide_eq_true_eq]
        omega)]
      rw [getD_drop_add]
      rw [show F - bc / 2 % F + (i - (F - bc / 2 % F)) = i from by omega]
    · intro j2 hj2
      dsimp only
      rw [getD_map_range F j2 _ false hj2]
      by_cases hpj : bc / 2 % F ≤ j2
      · rw [if_pos (by
          simp only [Bool.and_eq_true, decide_eq_true_eq]
          omega)]
        simp [hpj]
      · rw [if_neg (by
          simp only [Bool.and_eq_true, decide_eq_true_eq, not_and]
          omega)]
        simp [hpj]
    · intro j2 hj2
      dsimp only
      rw [getD_map_range F j2 _ false hj2]
      by_cases hpj : j2 < pl.length - (F - bc / 2 % F)
      · rw [if_pos (by
          simp only [Bool.and_eq_true, decide_eq_true_eq]
          omega)]
        simp [hpj]
      · rw [if_neg (by
          simp only [Bool.and_eq_true, decide_eq_true_eq, not_and]
          omega)]
        simp [hpj]

/-- C2: for every sequence of data packets whose sample ranges together
cover the offsets of one frame exactly once, presented in any order and
with any chunk boundaries, feeding them all to the reassembly engine
(`feed_packets` on an empty map) emits exactly one completed frame, frame
0, whose buffer holds at every offset the payload sample of the unique
covering packet — the concatenation of all packet payloads in offset
order; and a packet whose sample range starts mid-frame and spans two
frame ids is split across the two partial frames: the chunk sizes taken
in the per-packet loop are `[F - pos, len - (F - pos)]` and sum to the
payload length, and every payload sample is written exactly once at its
offset position in the corresponding buffer. -/
theorem reassembly_exact_cover (F : Nat) (hF : 0 < F)
    (ps : List (ℚ × Nat × List Nat))
    (hfit : ∀ p ∈ ps, p.2.1 / 2 + p.2.2.length ≤ F)
    (hcov : ∀ o, o < F → ps.countP (fun p => pkt_covers p o) = 1)
    (now : ℚ) (bc : Nat) (pl : List Nat)
    (hpos : bc / 2 % F ≠ 0)
    (hspan : F - bc / 2 % F < pl.length)
    (hsecond : pl.length - (F - bc / 2 % F) < F) :
    feed_packets F [] ps = ([], [(0, (List.range F).map (sampleAt ps))]) ∧
    ((place_chunks F pl.length (bc / 2) pl.length =
        [F - bc / 2 % F, pl.length - (F - bc / 2 % F)] ∧
      (F - bc / 2 % F) + (pl.length - (F - bc / 2 % F)) = pl.length) ∧
    ∃ buf1 buf2 : FrameBuf,
      place_data_packet F now [] bc pl =
        ([(bc / 2 / F, buf1), (bc / 2 / F + 1, buf2)], none) ∧
      buf1.first_seen = now ∧ buf2.first_seen = now ∧
      (∀ i, i < F - bc / 2 % F →
        buf1.data.getD (bc / 2 % F + i) 0 = pl.getD i 0) ∧
      (∀ i, F - bc / 2 % F ≤ i → i < pl.length →
        buf2.data.getD (i - (F - bc / 2 % F)) 0 = pl.getD i 0) ∧
      (∀ j, j < F → (buf1.filled.getD j false = true ↔ bc / 2 % F ≤ j)) ∧
      (∀ j, j < F → (buf2.filled.getD j false = true ↔
        j < pl.length - (F - bc / 2 % F)))) :=
  ⟨feed_empty_start F hF ps hfit hcov,
   place_straddle F hF now bc pl hpos hspan hsecond⟩

/-- Witness: two single-sample packets, presented in reversed offset
order, exactly cover a 2-sample frame and reassemble into the completed
frame `[10, 11]`; a 2-sample packet starting at offset 1 is split across
frames 0 and 1 with chunk sizes `[1, 1]`. -/
theorem reassembly_exact_cover_witness :
    feed_packets 2 [] [((5 : ℚ), 2, [11]), ((5 : ℚ), 0, [10])] =
      ([], [(0, [10, 11])]) ∧
    place_chunks 2 2 1 2 = [1, 1] := by
  have h := reassembly_exact_cover 2 (by decide)
    [((5 : ℚ), 2, [11]), ((5 : ℚ), 0, [10])] (by decide) (by decide)
    0 2 [20, 21] (by decide) (by decide) (by decide)
  exact ⟨h.1, h.2.1.1⟩

/-! ### Timeout eviction (C3 support) -/

lemma foldl_erase_cons (k : Nat) (v : FrameBuf) :
    ∀ (ks : List Nat) (m : FrameMap), k ∉ ks →
      ks.foldl (fun acc k2 => eraseFB acc k2) ((k, v) :: m) =
        (k, v) :: ks.foldl (fun acc k2 => eraseFB acc k2) m := by
  intro ks
  induction ks with
  | nil =>
    intro m _
    rfl
  | cons a t ih =>
    intro m hk
    have hne : ¬ k = a := fun h => hk (by rw [h]; exact List.mem_cons_self a t)
    simp only [List.foldl_cons]
    rw [show eraseFB ((k, v) :: m) a = (k, v) :: eraseFB m a from by
      show (if k = a then m else (k, v) :: eraseFB m a) = _
      rw [if_neg hne]]
    exact ih (eraseFB m a) (fun h => hk (List.mem_cons_of_mem a h))

lemma delete_incomplete_map_eq_filter (now tmo : ℚ) :
    ∀ m : FrameMap, (m.map (fun e => e.1)).Nodup →
      (delete_incomplete_frames now tmo m).1 =
        m.filter (fun e => ! decide (now - e.2.first_seen > tmo)) := by
  intro m
  induction m with
  | nil =>
    intro _
    rfl
  | cons e rest ih =>
    intro hnd
    obtain ⟨k, v⟩ := e
    rw [List.map_cons, List.nodup_cons] at hnd
    obtain ⟨hk, hnd2⟩ := hnd
    show ((((k, v) :: rest).filter (fun e => decide (now - e.2.first_seen > tmo))).map
        (fun e => e.1)).foldl (fun acc k2 => eraseFB acc k2) ((k, v) :: rest) = _
    by_cases hst : now - v.first_seen > tmo
    · rw [show ((k, v) :: rest).filter (fun e => decide (now - e.2.first_seen > tmo)) =
          (k, v) :: rest.filter (fun e => decide (now - e.2.first_seen > tmo)) from by
        simp [List.filter_cons, hst]]
      simp only [List.map_cons, List.foldl_cons]
      rw [show eraseFB ((k, v) :: rest) k = rest from by
        show (if k = k then rest else (k, v) :: eraseFB rest k) = rest
        rw [if_pos rfl]]
      rw [show ((k, v) :: rest).filter (fun e => ! decide (now - e.2.first_seen > tmo)) =
          rest.filter (fun e => ! decide (now - e.2.first_seen > tmo)) from by
        simp [List.filter_cons, hst]]
      exact ih hnd2
    · rw [show ((k, v) :: rest).filter (fun e => decide (now - e.2.first_seen > tmo)) =
          rest.filter (fun e => decide (now - e.2.first_seen > tmo)) from by
        simp [List.filter_cons, hst]]
      have hknot : k ∉ ((rest.filter
          (fun e => decide (now - e.2.first_seen > tmo))).map (fun e => e.1)) := by
        intro hmem
        obtain ⟨e2, he2, hke⟩ := List.mem_map.mp hmem
        exact hk (List.mem_map.mpr ⟨e2, (List.mem_filter.mp he2).1, hke⟩)
      rw [foldl_erase_cons k v _ rest hknot]
      rw [show ((k, v) :: rest).filter (fun e => ! decide (now - e.2.first_seen > tmo)) =
          (k, v) :: rest.filter (fun e => ! decide (now - e.2.first_seen > tmo)) from by
        simp [List.filter_cons, hst]]
      exact congrArg (List.cons (k, v)) (ih hnd2)

lemma lookupFB_none_of_not_mem :
    ∀ (m : FrameMap) (k : Nat), k ∉ m.map (fun e => e.1) → lookupFB m k = none := by
  intro m
  induction m with
  | nil =>
    intro k _
    rfl
  | cons e rest ih =>
    intro k hk
    obtain ⟨k2, v2⟩ := e
    rw [List.map_cons] at hk
    show (if k2 = k then some v2 else lookupFB rest k) = none
    rw [if_neg (fun h => hk (by rw [← h]; exact List.mem_cons_self _ _))]
    exact ih k (fun hm => hk (List.mem_cons_of_mem _ hm))

lemma lookupFB_filter (q : Nat × FrameBuf → Bool) :
    ∀ m : FrameMap, (m.map (fun e => e.1)).Nodup →
      ∀ (k : Nat) (v : FrameBuf), (k, v) ∈ m →
        lookupFB (m.filter q) k = if q (k, v) then some v else none := by
  intro m
  induction m with
  | nil =>
    intro _ k v hv
    exact absurd hv (List.not_mem_nil _)
  | cons e rest ih =>
    intro hnd k v hv
    obtain ⟨k2, v2⟩ := e
    rw [List.map_cons, List.nodup_cons] at hnd
    obtain ⟨hk2, hnd2⟩ := hnd
    rcases List.mem_cons.mp hv with heq | hmem
    · have hkk : k = k2 := congrArg Prod.fst heq
      have hvv : v = v2 := congrArg Prod.snd heq
      subst hkk
      subst hvv
      cases hq : q (k, v) with
      | true =>
        rw [show ((k, v) :: rest).filter q = (k, v) :: rest.filter q from by
          simp [List.filter_cons, hq]]
        rw [if_pos rfl]
        show (if k = k then some v else lookupFB (rest.filter q) k) = some v
        rw [if_pos rfl]
      | false =>
        rw [show ((k, v) :: rest).filter q = rest.filter q from by
          simp [List.filter_cons, hq]]
        rw [if_neg Bool.false_ne_true]
        apply lookupFB_none_of_not_mem
        intro hmem
        obtain ⟨e2, he2, hke⟩ := List.mem_map.mp hmem
        exact hk2 (List.mem_map.mpr ⟨e2, (List.mem_filter.mp he2).1, hke⟩)
    · have hne : ¬ k2 = k := by
        intro h
        exact hk2 (by rw [h]; exact List.mem_map.mpr ⟨(k, v), hmem, rfl⟩)
      cases hq2 : q (k2, v2) with
      | true =>
        rw [show ((k2, v2) :: rest).filter q = (k2, v2) :: rest.filter q from by
          simp [List.filter_cons, hq2]]
        show (if k2 = k then some v2 else lookupFB (rest.filter q) k) = _
        rw [if_neg hne]
        exact ih hnd2 k v hmem
      | false =>
        rw [show ((k2, v2) :: rest).filter q = rest.filter q from by
          simp [List.filter_cons, hq2]]
        exact ih hnd2 k v hmem

/-- A packet placed under a frame id absent from the map (for instance one
that was just evicted) starts a fresh partial frame: a new entry is
appended whose `first_seen` is the packet arrival time, and nothing is
emitted. -/
lemma place_fresh (F : Nat) (now2 : ℚ) (m2 : FrameMap) (bc : Nat) (pl : List Nat)
    (hlk : lookupFB m2 (bc / 2 / F) = none)
    (hlen : 0 < pl.length) (hfit : bc / 2 % F + pl.length ≤ F)
    (hlt : pl.length < F) :
    ∃ buf : FrameBuf,
      place_data_packet F now2 m2 bc pl = (m2 ++ [(bc / 2 / F, buf)], none) ∧
      buf.first_seen = now2 := by
  rw [place_single F now2 m2 bc pl hlen hfit]
  have hrep : List.replicate F false = (List.range F).map (fun _ => false) := by
    rw [List.map_const', List.length_range]
  have hall : (writeRange (List.replicate F false) (bc / 2 % F)
      (List.replicate pl.length true)).all (fun b => b) = false := by
    rw [hrep, writeRange_filled F (bc / 2 % F) pl.length _ hfit]
    rw [Bool.eq_false_iff]
    intro hb
    by_cases hpe : bc / 2 % F + pl.length < F
    · have h0 : (if decide (bc / 2 % F ≤ bc / 2 % F + pl.length) &&
          decide (bc / 2 % F + pl.length < bc / 2 % F + pl.length) then true
          else false) = true :=
        (all_map_range F _).mp hb (bc / 2 % F + pl.length) hpe
      rw [decide_eq_false (show ¬ bc / 2 % F + pl.length < bc / 2 % F + pl.length by
        omega), Bool.and_false] at h0
      simp at h0
    · have h0 : (if decide (bc / 2 % F ≤ 0) && decide (0 < bc / 2 % F + pl.length)
          then true else false) = true :=
        (all_map_range F _).mp hb 0 (by omega)
      rw [decide_eq_false (show ¬ bc / 2 % F ≤ 0 by omega), Bool.false_and] at h0
      simp at h0
  refine ⟨⟨writeRange (List.replicate F 0) (bc / 2 % F) pl,
    writeRange (List.replicate F false) (bc / 2 % F) (List.replicate pl.length true),
    now2⟩, ?_, rfl⟩
  simp only [place_step, hlk, Option.getD_none, Option.isSome_none, Bool.false_eq_true,
    if_false, newFrameBuf]
  rw [hall]
  rw [if_neg Bool.false_ne_true]

/-- C3: on a pending map with distinct frame ids, `_delete_incomplete_frames`
removes exactly the partial frames whose `first_seen` is more than the
timeout before the current time and returns the list of their ids; an
evicted id no longer resolves in the map while every fresh entry survives
unchanged, and evicted frames are never emitted — a later packet under the
same frame id starts a fresh partial frame (new entry, `first_seen` at the
new arrival time, nothing completed); the read loop runs the eviction right
after each completed frame with `timeout_incomplete_frames` equal to
`frame_period_seconds * 2`, twice the configured frame period. -/
theorem evict_stale_exact (now tmo : ℚ) (m : FrameMap)
    (hnd : (m.map (fun e => e.1)).Nodup) :
    (delete_incomplete_frames now tmo m).2 =
      (m.filter (fun e => decide (now - e.2.first_seen > tmo))).map (fun e => e.1) ∧
    (delete_incomplete_frames now tmo m).1 =
      m.filter (fun e => ! decide (now - e.2.first_seen > tmo)) ∧
    (∀ k v, (k, v) ∈ m → now - v.first_seen > tmo →
      lookupFB (delete_incomplete_frames now tmo m).1 k = none) ∧
    (∀ k v, (k, v) ∈ m → ¬ (now - v.first_seen > tmo) →
      lookupFB (delete_incomplete_frames now tmo m).1 k = some v) ∧
    (∀ (F : Nat) (now2 : ℚ) (m2 : FrameMap) (bc : Nat) (pl : List Nat),
      lookupFB m2 (bc / 2 / F) = none → 0 < pl.length →
      bc / 2 % F + pl.length ≤ F → pl.length < F →
      ∃ buf : FrameBuf,
        place_data_packet F now2 m2 bc pl = (m2 ++ [(bc / 2 / F, buf)], none) ∧
        buf.first_seen = now2) ∧
    (∀ (F : Nat) (fps : ℚ) (rest : List (ℚ × Nat × List Nat)) (m2 : FrameMap)
      (now3 : ℚ) (bc : Nat) (pl : List Nat) (fr : Nat × List Nat),
      (place_data_packet F now3 m2 bc pl).2 = some fr →
      dca_read F fps ((now3, bc, pl) :: rest) m2 =
        some ((delete_incomplete_frames now3 (fps * 2)
            (place_data_packet F now3 m2 bc pl).1).1,
          (delete_incomplete_frames now3 (fps * 2)
            (place_data_packet F now3 m2 bc pl).1).2, fr)) ∧
    (∀ fp : ℚ, frame_period_seconds fp * 2 = 2 * (fp / 1000)) := by
  refine ⟨rfl, delete_incomplete_map_eq_filter now tmo m hnd, ?_, ?_, ?_, ?_, ?_⟩
  · intro k v hv hst
    rw [delete_incomplete_map_eq_filter now tmo m hnd,
      lookupFB_filter _ m hnd k v hv, if_neg (by simp [hst])]
  · intro k v hv hst
    rw [delete_incomplete_map_eq_filter now tmo m hnd,
      lookupFB_filter _ m hnd k v hv, if_pos (by simp [hst])]
  · intro F now2 m2 bc pl h1 h2 h3 h4
    exact place_fresh F now2 m2 bc pl h1 h2 h3 h4
  · intro F fps rest m2 now3 bc pl fr hfr
    simp only [dca_read]
    rw [hfr]
  · intro fp
    show fp / 1000 * 2 = 2 * (fp / 1000)
    ring

/-- Witness: of two one-sample partial frames first seen at times 0 and
10, eviction at time 11 with timeout 2 removes exactly frame 0 (age 11),
returns `[0]`, and keeps frame 1 (age 1). -/
theorem evict_stale_exact_witness :
    (delete_incomplete_frames 11 2
      ([(0, ⟨[0], [false], (0 : ℚ)⟩), (1, ⟨[0], [false], (10 : ℚ)⟩)] : FrameMap)).2 =
      [0] ∧
    (delete_incomplete_frames 11 2
      ([(0, ⟨[0], [false], (0 : ℚ)⟩), (1, ⟨[0], [false], (10 : ℚ)⟩)] : FrameMap)).1 =
      ([(1, ⟨[0], [false], (10 : ℚ)⟩)] : FrameMap) ∧
    lookupFB (delete_incomplete_frames 11 2
      ([(0, ⟨[0], [false], (0 : ℚ)⟩), (1, ⟨[0], [false], (10 : ℚ)⟩)] : FrameMap)).1 0 =
      none := by
  have h := evict_stale_exact 11 2
    ([(0, ⟨[0], [false], (0 : ℚ)⟩), (1, ⟨[0], [false], (10 : ℚ)⟩)] : FrameMap)
    (by decide)
  refine ⟨h.1.trans (by norm_num [List.filter]),
    h.2.1.trans (by norm_num [List.filter]), ?_⟩
  exact h.2.2.1 0 ⟨[0], [false], (0 : ℚ)⟩ (List.mem_cons_self _ _) (by norm_num)
